import Mathlib

/-!
Verification development for the warp2api protocol-translating proxy.

Shallow embedding of the streaming-translation core:
* the message-history normalizer (`reorder_messages_for_anthropic`,
  `clean_incomplete_tool_calls` from `protobuf2openai/reorder.py`),
* the request assembler (`protobuf2openai/packets.py`, `helpers.py`),
* the OpenAI translator terminating chunk (`protobuf2openai/sse_transform.py`),
* the Anthropic SSE state machine (`protobuf2openai/anthropic_sse_transform.py`),
* the upstream frame decoder (`warp2protobuf/warp/api_client.py`),
* the credential-pool maintenance cycle (`warp_token_pool.py`).

Python strings are modelled as Lean `String` (sequences of code points);
Python dict-based records as structures with `Option` fields; Python
truthiness is modelled explicitly.
-/

set_option maxRecDepth 16384

deriving instance DecidableEq for Except

namespace Warp2Api

/-! ### Python string primitives -/

/-- Characters matched by the ASCII whitespace class of Python
(`str.strip` default set and the regex class used by `re.sub(r"\s+", ...)`). -/
def isPyWs (c : Char) : Bool :=
  c = ' ' || c = '\t' || c = '\n' || c = '\x0d' || c = '\x0b' || c = '\x0c'

/-- `re.sub(r"\s+", "", s)`: remove every whitespace character. -/
def stripAllWs (s : String) : String :=
  String.mk (s.toList.filter (fun c => !(isPyWs c)))

/-- Python `str.strip()`: drop leading and trailing whitespace. -/
def pyStrip (s : String) : String :=
  String.mk ((s.toList.dropWhile isPyWs).reverse.dropWhile isPyWs |>.reverse)

/-- Python `sub in s` membership test on strings. -/
def pyIn (sub s : String) : Bool :=
  decide (sub.toList <:+: s.toList)

/-- Python `str.lower()` restricted to ASCII letters (model names are ASCII). -/
def pyLower (s : String) : String :=
  String.mk (s.toList.map Char.toLower)

/-- Python truthiness of an optional string (`None` and `""` are falsy). -/
def optStrTruthy : Option String → Bool
  | none => false
  | some s => s ≠ ""

/-! ### Public-API data model (`protobuf2openai/models.py`)

`ChatMessage.content` is `Optional[Union[str, List[dict]]]`; the list form
holds segment dicts with optional `type` and `text` keys. -/

/-- One element of a list-form `content`: a dict with optional
`type` and `text` entries (`text`, when present, is a Python `str`). -/
structure Seg where
  ty : Option String
  tx : Option String
deriving DecidableEq, Repr

/-- The `content` field of a `ChatMessage`: a Python `str` or a list of segment dicts. -/
inductive Content where
  | str (s : String)
  | segs (l : List Seg)
deriving DecidableEq, Repr

/-- One entry of an assistant message `tool_calls` list: a dict whose
`id` key may be missing; the `function` sub-dict is kept abstract except
for the name (the normalizer only reads `id`). -/
structure ToolCall where
  id : Option String
  fname : Option String
deriving DecidableEq, Repr

/-- `ChatMessage` (pydantic model): `role`, optional `content`
(default `""`), optional `tool_call_id`, optional `tool_calls`. -/
structure ChatMessage where
  role : String
  content : Option Content := some (.str "")
  tool_call_id : Option String := none
  tool_calls : Option (List ToolCall) := none
deriving DecidableEq, Repr

/-- Python truthiness of a `content` value (`None`, `""` and `[]` are falsy). -/
def contentTruthy : Option Content → Bool
  | none => false
  | some (.str s) => s ≠ ""
  | some (.segs l) => l ≠ []

/-- Python truthiness of a `tool_calls` value (`None` and `[]` are falsy). -/
def tcsTruthy : Option (List ToolCall) → Bool
  | none => false
  | some l => l ≠ []

/-- The blank test applied to tool-result content throughout `reorder.py`:
`not msg.content or (isinstance(msg.content, str) and not msg.content.strip())`. -/
def contentBlank (c : Option Content) : Bool :=
  !(contentTruthy c) ||
    (match c with
     | some (.str s) => pyStrip s = ""
     | _ => false)

/-! ### `protobuf2openai/helpers.py` -/

/-- `normalize_content_to_list`: coerce a `content` value to a list of
`{type, text}` segment dicts.  A `str` becomes one text segment; a list is
filtered and normalized item by item; `None` yields `[]`. -/
def normalize_content_to_list : Option Content → List Seg
  | none => []
  | some (.str s) => [⟨some "text", some s⟩]
  | some (.segs items) =>
    items.foldr (fun item acc =>
      let t : Option String :=
        if optStrTruthy item.ty then item.ty
        else if item.tx.isSome then some "text" else none
      if t = some "text" && item.tx.isSome then
        ⟨some "text", item.tx⟩ :: acc
      else
        let seg : Seg := ⟨(if optStrTruthy t then t else none), item.tx⟩
        if seg.ty.isSome || seg.tx.isSome then seg :: acc else acc) []

/-- `segments_to_text`: concatenate the `text` of every `{type:"text"}` segment. -/
def segments_to_text (segments : List Seg) : String :=
  String.join (segments.foldr (fun seg acc =>
    if seg.ty = some "text" && seg.tx.isSome then (seg.tx.getD "") :: acc else acc) [])

/-! ### `protobuf2openai/helpers.py` — `segments_to_warp_results`

Python strings are sequences of code points; the splitter below works on
`List Char` so that lengths and indices match Python exactly. -/

/-- The ordered list of preferred split points of `smart_split_text`. -/
def splitCharsList : List (List Char) :=
  ["\n\n", "\n", ". ", "。", "！", "？", ", ", "，", " "].map String.toList

/-- Does `sub` occur in `rem` starting at index `i`? -/
def matchAt (rem sub : List Char) (i : Nat) : Bool :=
  decide ((rem.drop i).take sub.length = sub)

/-- `text.rfind(sub, start, start + window)` relative to `start`: the largest
`i` with `i + sub.length ≤ window` at which `sub` occurs (the window is
assumed to lie inside the text, as it does at every call site). -/
def rfindIn (rem sub : List Char) (window : Nat) : Option Nat :=
  if sub.length ≤ window then
    ((List.range (window - sub.length + 1)).reverse).find? (matchAt rem sub)
  else none

/-- The split position chosen for the current window: the first split
string that occurs at a positive offset wins (position + its length),
defaulting to the full window (`end`). -/
def bestSplit (rem : List Char) : Nat :=
  match splitCharsList.find? (fun sub =>
      match rfindIn rem sub 1000 with
      | some p => 0 < p
      | none => false) with
  | some sub => (rfindIn rem sub 1000).getD 0 + sub.length
  | none => 1000

/-- The `while` loop of `smart_split_text` over the remaining text.  The
fuel argument makes the recursion structural; since every iteration
consumes at least one character, any fuel of at least `rem.length` yields
the loop result (see `smartSplitGo_fuel_irrelevant`). -/
def smartSplitGo : Nat → List Char → List (List Char)
  | 0, rem => [rem]
  | fuel + 1, rem =>
    if rem.length ≤ 1000 then [rem]
    else rem.take (bestSplit rem) :: smartSplitGo fuel (rem.drop (bestSplit rem))

/-- `smart_split_text(text, 1000)`. -/
def smart_split_text (text : List Char) : List (List Char) :=
  if text.length ≤ 1000 then [text] else smartSplitGo text.length text

/-- Attach the `[i/n]` segment marker to the `i`-th of `n` chunks
(0-based `i`; a suffix marker on the first chunk, a prefix on the rest);
no marker when there is a single chunk. -/
def markChunk (n i : Nat) (chunk : List Char) : List Char :=
  if 1 < n then
    if i = 0 then chunk ++ (" [1/" ++ toString n ++ "]").toList
    else ("[" ++ toString (i + 1) ++ "/" ++ toString n ++ "] ").toList ++ chunk
  else chunk

/-- One `{text: {text: …}}` result object sent upstream. -/
structure WarpChunk where
  text : String
deriving DecidableEq, Repr

/-- `segments_to_warp_results`: map text segments to upstream result
chunks, splitting texts longer than 1000 characters and attaching
segment markers when more than one chunk results. -/
def segments_to_warp_results (segments : List Seg) : List WarpChunk :=
  segments.flatMap (fun seg =>
    if seg.ty = some "text" && seg.tx.isSome then
      let text := (seg.tx.getD "").toList
      if 1000 < text.length then
        let chunks := smart_split_text text
        chunks.enum.map (fun p => ⟨String.mk (markChunk chunks.length p.1 p.2)⟩)
      else [⟨String.mk text⟩]
    else [])

/-! ### `protobuf2openai/reorder.py` — pass A: `reorder_messages_for_anthropic` -/

/-- The truthy tool-call ids of one `tool_calls` list
(`_id = (tc or {}).get("id"); isinstance(_id, str) and _id`). -/
def idsOfTcs (l : List ToolCall) : List String :=
  l.foldr (fun tc acc => match tc.id with
    | some s => if s ≠ "" then s :: acc else acc
    | none => acc) []

/-- Expansion step of pass A: split multi-segment user messages and
multi-tool-call assistant messages into single-payload messages. -/
def expandMsg (m : ChatMessage) : List ChatMessage :=
  if m.role = "user" then
    let items := normalize_content_to_list m.content
    match m.content with
    | some (.segs _) =>
      if 1 < items.length then
        items.map (fun seg =>
          if seg.ty = some "text" && seg.tx.isSome then
            { role := "user", content := some (.str (seg.tx.getD "")) }
          else
            { role := "user", content := some (.segs [seg]) })
      else [m]
    | _ => [m]
  else
    match m.tool_calls with
    | some tcs =>
      if m.role = "assistant" && tcs ≠ [] && 1 < tcs.length then
        let t := segments_to_text (normalize_content_to_list m.content)
        (if t ≠ "" then [{ role := "assistant", content := some (.str t) }] else []) ++
          tcs.map (fun tc =>
            { role := "assistant", content := some (.str ""), tool_calls := some [tc] })
      else [m]
    | none => [m]

/-- Scan a reversed history for the final input: stop at the first tool
result with a truthy id (returning its id) or at the first user message. -/
def lastInputScan : List ChatMessage → Option String
  | [] => none
  | m :: rest =>
    if m.role = "tool" && optStrTruthy m.tool_call_id then m.tool_call_id
    else if m.role = "user" then none
    else lastInputScan rest

/-- Backwards scan for the final input: `some id` when the last user-or-tool
message is a tool result with a truthy id, `none` otherwise
(both `last_input_tool_id` and `last_input_is_tool` of the source). -/
def lastInputTool (l : List ChatMessage) : Option String :=
  lastInputScan l.reverse

/-- First-occurrence map `tool_results_by_id` (an association list keyed by id). -/
def toolResultsById (expanded : List ChatMessage) : List (String × ChatMessage) :=
  expanded.foldl (fun acc m =>
    match m.tool_call_id with
    | some i =>
      if m.role = "tool" && i ≠ "" && (acc.lookup i).isNone then acc ++ [(i, m)] else acc
    | none => acc) []

/-- The set `assistant_tc_ids` of every truthy id in some assistant `tool_calls`. -/
def assistantTcIds (expanded : List ChatMessage) : List String :=
  expanded.foldl (fun acc m =>
    match m.tool_calls with
    | some tcs =>
      if m.role = "assistant" && tcs ≠ [] then
        (idsOfTcs tcs).foldl (fun a i => if i ∈ a then a else a ++ [i]) acc
      else acc
    | none => acc) []

/-- State of the main reorder loop: emitted messages, the remaining
`tool_results_by_id` map, and the deferred `trailing_assistant_msg`. -/
structure ReorderSt where
  result : List ChatMessage
  trMap : List (String × ChatMessage)
  trailing : Option ChatMessage

/-- One iteration of the main loop of `reorder_messages_for_anthropic`. -/
def reorderStep (lastTool : Option String) (tcIds : List String)
    (st : ReorderSt) (m : ChatMessage) : ReorderSt :=
  if m.role = "tool" then
    if !(optStrTruthy m.tool_call_id) || (m.tool_call_id.getD "") ∉ tcIds then
      { st with
        result := st.result ++ [m]
        trMap := match m.tool_call_id with
          | some i => if i ≠ "" then st.trMap.eraseP (fun p => p.1 = i) else st.trMap
          | none => st.trMap }
    else st
  else
    match m.tool_calls with
    | some tcs =>
      if m.role = "assistant" && tcs ≠ [] then
        let ids := idsOfTcs tcs
        if (match lastTool with | some i => i ≠ "" && ids.contains i | none => false) then
          if st.trailing = none then { st with trailing := some m } else st
        else
          ids.foldl (fun s i =>
            match s.trMap.lookup i with
            | some tr =>
              { s with result := s.result ++ [tr], trMap := s.trMap.eraseP (fun p => p.1 = i) }
            | none => s)
            { st with result := st.result ++ [m] }
      else { st with result := st.result ++ [m] }
    | none => { st with result := st.result ++ [m] }

/-- `reorder_messages_for_anthropic`: pass A of the history normalizer. -/
def reorder_messages_for_anthropic (history : List ChatMessage) : List ChatMessage :=
  if history = [] then []
  else
    let expanded := history.flatMap expandMsg
    let lastTool := lastInputTool expanded
    let tcIds := assistantTcIds expanded
    let st0 : ReorderSt := ⟨[], toolResultsById expanded, none⟩
    let st := expanded.foldl (reorderStep lastTool tcIds) st0
    match lastTool, st.trailing with
    | some i, some tm =>
      if i ≠ "" then
        st.result ++ [tm] ++ (match st.trMap.lookup i with
          | some tr => [tr]
          | none => [])
      else st.result
    | _, _ => st.result

/-! ### `protobuf2openai/reorder.py` — pass B: `clean_incomplete_tool_calls` -/

/-- The filled replacement for a blank tool result:
`ChatMessage(role=…, content="No content", tool_call_id=…)`. -/
def fillNoContent (m : ChatMessage) : ChatMessage :=
  { role := m.role, content := some (.str "No content"), tool_call_id := m.tool_call_id }

/-- Result of the inner collection loop of the assistant branch. -/
structure CollectRes where
  trs : List ChatMessage
  ints : List ChatMessage
  rest : List ChatMessage

/-- Inner collection loop: consume tool results (filling blank matched ones)
and interrupted user/system messages until an assistant (or any other
role, or a tool result without truthy id) stops the scan. -/
def collectResults (expected : List String) : List ChatMessage → CollectRes
  | [] => ⟨[], [], []⟩
  | nm :: rest =>
    if nm.role = "tool" && optStrTruthy nm.tool_call_id then
      let processed :=
        if (nm.tool_call_id.getD "") ∈ expected && contentBlank nm.content then
          fillNoContent nm
        else nm
      let r := collectResults expected rest
      ⟨processed :: r.trs, r.ints, r.rest⟩
    else if nm.role = "user" || nm.role = "system" then
      let r := collectResults expected rest
      ⟨r.trs, nm :: r.ints, r.rest⟩
    else ⟨[], [], nm :: rest⟩

/-- The ids of collected tool results that match the expected set
(`found_tool_ids`). -/
def foundIds (expected : List String) (trs : List ChatMessage) : List String :=
  trs.foldr (fun tr acc =>
    match tr.tool_call_id with
    | some i => if i ∈ expected then i :: acc else acc
    | none => acc) []

/-- Backwards search of the emitted prefix for an assistant tool-call
matching the given `tool_call_id` (compared with Python `==`, so a missing
id matches a missing `tool_call_id`).  Scanning stops, negatively, at the
first assistant message without truthy tool calls. -/
def hasMatchingToolUse (tcid : Option String) : List ChatMessage → Bool
  | [] => false
  | pm :: rest =>
    match pm.tool_calls with
    | some tcs =>
      if pm.role = "assistant" && tcs ≠ [] then
        if tcs.any (fun tc => tc.id = tcid) then true
        else hasMatchingToolUse tcid rest
      else if pm.role = "assistant" then false
      else hasMatchingToolUse tcid rest
    | none =>
      if pm.role = "assistant" then false
      else hasMatchingToolUse tcid rest

/-- Is the current message the head of an assistant tool-call block
(`current_msg.role == "assistant" and current_msg.tool_calls`)? -/
def isAssistantTcBlock (m : ChatMessage) : Bool :=
  m.role = "assistant" && tcsTruthy m.tool_calls

/-- Main loop of `clean_incomplete_tool_calls`; `fixed` is the emitted
prefix.  The fuel argument makes the recursion structural; every
iteration consumes at least one remaining message, so any fuel of at
least the list length yields the loop result
(see `cleanGo_fuel_irrelevant`). -/
def cleanGo : Nat → List ChatMessage → List ChatMessage → List ChatMessage
  | 0, fixed, rest => fixed ++ rest
  | _ + 1, fixed, [] => fixed
  | fuel + 1, fixed, cur :: rest =>
    if isAssistantTcBlock cur then
      let tcs := cur.tool_calls.getD []
      let expected := idsOfTcs tcs
      let r := collectResults expected rest
      let found := foundIds expected r.trs
      let missing := expected.filter (fun i => i ∉ found)
      if missing ≠ [] then
        let valid := tcs.filter (fun tc =>
          optStrTruthy tc.id && (tc.id.getD "") ∉ missing)
        let assistantPart : List ChatMessage :=
          if valid ≠ [] then
            [{ role := cur.role, content := cur.content, tool_calls := some valid }]
          else if contentTruthy cur.content then
            [{ role := cur.role, content := cur.content, tool_calls := none }]
          else []
        let keptTrs := r.trs.filter (fun tr =>
          match tr.tool_call_id with
          | some i => i ∈ found
          | none => false)
        cleanGo fuel (fixed ++ assistantPart ++ keptTrs ++ r.ints) r.rest
      else
        cleanGo fuel (fixed ++ [cur] ++ r.trs ++ r.ints) r.rest
    else if cur.role = "tool" then
      if contentBlank cur.content then
        if hasMatchingToolUse cur.tool_call_id fixed.reverse then
          cleanGo fuel (fixed ++ [fillNoContent cur]) rest
        else cleanGo fuel fixed rest
      else
        if hasMatchingToolUse cur.tool_call_id fixed.reverse then
          cleanGo fuel (fixed ++ [cur]) rest
        else cleanGo fuel fixed rest
    else cleanGo fuel (fixed ++ [cur]) rest

/-- `clean_incomplete_tool_calls`: pass B of the history normalizer. -/
def clean_incomplete_tool_calls (messages : List ChatMessage) : List ChatMessage :=
  if messages = [] then messages else cleanGo messages.length [] messages

/-- The full history normalizer as invoked by the router:
`reorder_messages_for_anthropic` followed by `clean_incomplete_tool_calls`. -/
def normalizeHistory (h : List ChatMessage) : List ChatMessage :=
  clean_incomplete_tool_calls (reorder_messages_for_anthropic h)

/-! ### `protobuf2openai/packets.py` -/

/-- `RESTRICTED_TOOLS` (the source lists `apply_file_diffs` twice). -/
def RESTRICTED_TOOLS : List String :=
  ["read_files", "write_files", "list_files", "apply_file_diffs",
   "str_replace_editor", "search_files", "apply_file_diffs",
   "search_codebase", "suggest_plan", "suggest_create_plan", "grep",
   "file_glob", "file_glob_v2", "read_mcp_resource",
   "write_to_long_running_shell_command", "suggest_new_conversation",
   "ask_followup_question", "attempt_completion"]

/-- `get_tool_restrictions_text()`: the ALERT block placed in
`referenced_attachments.SYSTEM_PROMPT.plain_text`. -/
def get_tool_restrictions_text : String :=
  "<ALERT>you are not allowed to call following tools:\n" ++
  String.intercalate "\n" (RESTRICTED_TOOLS.map (fun t => "- `" ++ t ++ "`")) ++
  "\n\nIMPORTANT: When using git diff or similar commands to view file changes, always check ONE file at a time to avoid execution issues. Use separate commands for each file instead of passing multiple files to a single command.\n\nExample:\n- ✅ Good: git diff file1.py\n- ✅ Good: git diff file2.py\n- ❌ Avoid: git diff file1.py file2.py</ALERT>"

/-- The inline reminder prepended to the final user query
(`tool_restriction_inline`; only the first 8 restricted tools are listed). -/
def tool_restriction_inline : String :=
  "⚠️ CRITICAL REMINDER: You MUST NOT use these restricted tools: " ++
  String.intercalate ", " (RESTRICTED_TOOLS.take 8) ++
  "... Use only MCP-provided tools. \n\n"

/-- One element appended to `input.user_inputs.inputs`. -/
inductive InputRecord where
  | user_query (query : String) (referencedSystemPrompt : String)
  | tool_call_result (toolCallId : String) (results : List WarpChunk)
deriving DecidableEq, Repr

/-- The system-prompt attachment text: the tool-restriction block always,
followed by the concatenated system prompts when truthy. -/
def referencedText (system_prompt_text : Option String) : String :=
  get_tool_restrictions_text ++
    (if optStrTruthy system_prompt_text then system_prompt_text.getD "" else "")

/-- The `请继续` continuation input built when the final message is a plain
assistant message. -/
def continueInput (system_prompt_text : Option String) : InputRecord :=
  .user_query "请继续" (referencedText system_prompt_text)

/-- `attach_user_and_tools_to_inputs`: compute the records appended to
`input.user_inputs.inputs` for the final post-normalization message.
The empty history hits `assert False` (modelled as an error); a final
assistant message that still carries tool calls, or a final message of any
other shape, appends nothing and returns normally. -/
def attach_user_and_tools_to_inputs (history : List ChatMessage)
    (system_prompt_text : Option String) : Except String (List InputRecord) :=
  match history.getLast? with
  | none => .error "post-reorder must contain at least one message"
  | some last =>
    if last.role = "user" then
      let queryText0 := segments_to_text (normalize_content_to_list last.content)
      let queryText1 := if queryText0 = "" || pyStrip queryText0 = "" then " " else queryText0
      .ok [.user_query (tool_restriction_inline ++ queryText1)
            (referencedText system_prompt_text)]
    else if last.role = "tool" && optStrTruthy last.tool_call_id then
      let results0 := segments_to_warp_results (normalize_content_to_list last.content)
      let results := if results0 = [] then [⟨" "⟩] else results0
      .ok [.tool_call_result (last.tool_call_id.getD "") results]
    else if last.role = "assistant" then
      if tcsTruthy last.tool_calls then .ok []
      else .ok [continueInput system_prompt_text]
    else .ok []

/-- The request validation of `chat_completions` / `anthropic_messages`:
HTTP 400 exactly when the submitted `messages` array is empty. -/
def requestRejectedEmptyMessages (messages : List ChatMessage) : Bool :=
  messages = []

/-- The `input.user_inputs.inputs` list of the packet built for a request:
`packet_template()` starts it empty and `attach_user_and_tools_to_inputs`
appends to it after the history is normalized. -/
def packetInputs (messages : List ChatMessage) (system_prompt_text : Option String) :
    Except String (List InputRecord) :=
  attach_user_and_tools_to_inputs (normalizeHistory messages) system_prompt_text

/-! ### `protobuf2openai/sse_transform.py` -/

/-- `get_model_context_window`: 200k for the known Claude families, 100k default. -/
def get_model_context_window (model_name : String) : Nat :=
  let modelLower := pyLower model_name
  if pyIn "claude-3" modelLower then 200000
  else if pyIn "claude-4" modelLower then 200000
  else 100000

/-- The recovery hint the streaming driver appends on the first recoverable
`INTERNAL_TOOL` error when a tool name was extracted (`recovery_prompt`). -/
def internalToolRecoveryText (tool_name : String) : String :=
  "\n\n[系统自动恢复] 请继续之前的任务，但不要使用 " ++ tool_name ++
  " 工具。可用的工具包括：Read、Write、Edit、Bash、Glob、Grep 等 MCP 工具。"

/-- The recovery hint used when no tool name could be extracted. -/
def internalToolRecoveryTextNoTool : String :=
  "\n\n[系统自动恢复] 请继续之前的任务，使用可用的 MCP 工具完成。"

/-- The idempotence marker checked before appending the internal-tool hint. -/
def internalToolMarker : String := "[系统自动恢复]"

/-- The mutation applied to the last `user_query.query` of the deep-copied
packet on a first recoverable `INTERNAL_TOOL` error (both the streaming
driver in `sse_transform.py` and the non-streaming driver in `router.py`
use this text and marker). -/
def mutateQueryForInternalTool (query : String) (tool_name : Option String) : String :=
  let recoveryPrompt := match tool_name with
    | some t => internalToolRecoveryText t
    | none => internalToolRecoveryTextNoTool
  if pyIn internalToolMarker query then query else query ++ recoveryPrompt

/-- The literal the specification claims is appended (English wording);
kept separate so the code text can be compared against it.
Modelled from the spec: `"\n\n[system auto-recovery] Please continue the
task but do not use the <tool_name> tool. …"`. -/
def specInternalToolRecoveryText (tool_name : String) : String :=
  "\n\n[system auto-recovery] Please continue the task but do not use the " ++
  tool_name ++
  " tool. Available tools: Read, Write, Edit, Bash, Glob, Grep, and other MCP tools."

/-- The `context_window_info` value of a `finished` event: a dict with the
recognised ratio keys, or a bare number (unrelated dict keys are not
modelled). -/
inductive CWInfo where
  | dict (context_window_usage used ratio : Option ℚ)
  | num (v : ℚ)
deriving DecidableEq

/-- Python `a or b` on numbers: `a` when non-zero, else `b`. -/
def pyOrQ (a b : ℚ) : ℚ := if a ≠ 0 then a else b

/-- `context_usage` extraction:
`cwi.get("context_window_usage", 0) or cwi.get("used", 0) or cwi.get("ratio", 0)`
for a dict, `float(cwi)` for a bare number. -/
def extractContextUsage : CWInfo → ℚ
  | .dict cwu used ratio => pyOrQ (cwu.getD 0) (pyOrQ (used.getD 0) (ratio.getD 0))
  | .num v => v

/-- Python `int()` on a rational: truncation toward zero. -/
def pyInt (q : ℚ) : ℤ := if 0 ≤ q then ⌊q⌋ else -⌊-q⌋

/-- `prompt_tokens` of the terminating chunk: when `context_window_info` is
truthy, `int(context_usage * max_context)` for a positive usage, else the
pre-computed `input_tokens` estimate (or 1000 when that is zero). -/
def estimatedInputTokens (cwi : Option CWInfo) (input_tokens : Nat)
    (model_id : String) : ℤ :=
  let fallback : ℤ := if 0 < input_tokens then (input_tokens : ℤ) else 1000
  match cwi with
  | some info =>
    let usage := extractContextUsage info
    if 0 < usage then pyInt (usage * (get_model_context_window model_id : ℚ))
    else fallback
  | none => fallback

/-- `completion_tokens`: the tokenizer count of the accumulated output text,
bumped to 1 when it is zero (`count_tokens` itself is the external tiktoken
collaborator, passed in as a function). -/
def estimatedOutputTokens (countTokens : String → Nat) (output_text : String) : Nat :=
  let n := if output_text ≠ "" then countTokens output_text else 0
  if n = 0 then 1 else n

/-- The `usage` object of the terminating chunk. -/
structure Usage where
  prompt_tokens : ℤ
  completion_tokens : Nat
  total_tokens : ℤ
deriving DecidableEq, Repr

/-- An emitted OpenAI SSE item: a chunk (only the fields the claims are
about: delta content/tool-call payload, `finish_reason`, `usage`), or the
final `data: [DONE]` line. -/
inductive OutItem where
  | chunk (deltaEmpty : Bool) (finishReason : Option String) (usage : Option Usage)
  | doneLine
deriving DecidableEq, Repr

/-- What `_process_sse_response_lines` emits for a clean `finished` event
(no `internal_error`, no `llm_unavailable`) followed by the end of the
upstream stream: the terminating chunk with empty delta, the
`tool_calls`/`stop` finish reason and the usage object, then the
`data: [DONE]` line emitted after the loop. -/
def processFinishedClean (tool_calls_emitted : Bool) (output_text : String)
    (cwi : Option CWInfo) (input_tokens : Nat) (model_id : String)
    (countTokens : String → Nat) : List OutItem :=
  let outTok := estimatedOutputTokens countTokens output_text
  let inTok := estimatedInputTokens cwi input_tokens model_id
  [.chunk true (some (if tool_calls_emitted then "tool_calls" else "stop"))
    (some ⟨inTok, outTok, inTok + (outTok : ℤ)⟩),
   .doneLine]

/-! ### `protobuf2openai/anthropic_sse_transform.py`

The translator is a state machine over parsed OpenAI chunks; the SSE line
framing (`data: ` prefixes, JSON parsing, skipping chunks without
`choices`) is handled before the state machine and is not re-modelled:
the input below is the stream of parsed `choices[0]` deltas. -/

/-- One entry of `delta.tool_calls`. -/
structure TCDelta where
  id : Option String
  fnName : Option String
  fnArgs : Option String
deriving DecidableEq, Repr

/-- One parsed OpenAI chunk (the `choices[0]` delta plus `finish_reason`
and the optional `usage` pair). -/
structure ChunkIn where
  deltaRole : Option String := none
  deltaContent : Option String := none
  deltaToolCalls : Option (List TCDelta) := none
  finishReason : Option String := none
  usage : Option (Nat × Nat) := none
deriving DecidableEq, Repr

/-- An emitted Anthropic SSE event. -/
inductive AEvent where
  | message_start
  | content_block_start (index : Nat) (isToolUse : Bool)
  | content_block_delta (index : Nat) (payload : String)
  | content_block_stop (index : Nat)
  | message_delta (stopReason : String) (inTok outTok : Nat)
  | message_stop
deriving DecidableEq, Repr

/-- Translator state: `content_index`, `has_text_content`,
`has_tool_calls`, `current_tool_call is not None`, `stream_completed`,
and the tracked usage counters. -/
structure AState where
  contentIndex : Nat := 0
  hasText : Bool := false
  hasTool : Bool := false
  currentTool : Bool := false
  completed : Bool := false
  inTok : Nat := 0
  outTok : Nat := 0
deriving DecidableEq, Repr

/-- `stop_reason_mapping` with its `end_turn` default. -/
def mapStopReason (r : String) : String :=
  if r = "stop" then "end_turn"
  else if r = "length" then "max_tokens"
  else if r = "tool_calls" then "tool_use"
  else if r = "content_filter" then "stop_sequence"
  else "end_turn"

/-- Handle one entry of `delta.tool_calls`. -/
def processToolDelta (st : AState) (tc : TCDelta) : AState × List AEvent :=
  let (st1, evs1) :=
    if optStrTruthy tc.id && optStrTruthy tc.fnName then
      let (stA, evsA) :=
        if st.hasText then
          ({ st with contentIndex := st.contentIndex + 1, hasText := false },
           [AEvent.content_block_stop st.contentIndex])
        else (st, [])
      let stB := if stA.hasTool then { stA with contentIndex := stA.contentIndex + 1 } else stA
      ({ stB with currentTool := true, hasTool := true },
       evsA ++ [AEvent.content_block_start stB.contentIndex true])
    else (st, [])
  if st1.currentTool && optStrTruthy tc.fnArgs then
    (st1, evs1 ++ [AEvent.content_block_delta st1.contentIndex (tc.fnArgs.getD "")])
  else (st1, evs1)

/-- The `delta.content` handling of one chunk. -/
def contentStage (st : AState) (ch : ChunkIn) : AState × List AEvent :=
  if optStrTruthy ch.deltaContent then
    let (stA, evsA) :=
      if !st.hasText then
        ({ st with hasText := true },
         [AEvent.content_block_start st.contentIndex false])
      else (st, [])
    (stA, evsA ++ [AEvent.content_block_delta stA.contentIndex (ch.deltaContent.getD "")])
  else (st, [])

/-- The `delta.tool_calls` handling of one chunk. -/
def toolStage (st : AState) (ch : ChunkIn) : AState × List AEvent :=
  match ch.deltaToolCalls with
  | some l =>
    if l ≠ [] then
      l.foldl (fun (acc : AState × List AEvent) tc =>
        let r := processToolDelta acc.1 tc
        (r.1, acc.2 ++ r.2)) (st, [])
    else (st, [])
  | none => (st, [])

/-- The `finish_reason` handling of one chunk. -/
def finishStage (st : AState) (ch : ChunkIn) : AState × List AEvent :=
  if optStrTruthy ch.finishReason then
    let st3 := match ch.usage with
      | some (p, c) => { st with inTok := p, outTok := c }
      | none => st
    let (st4, evs4) :=
      if st3.hasText || st3.hasTool then
        ({ st3 with currentTool := false },
         [AEvent.content_block_stop st3.contentIndex])
      else (st3, [])
    ({ st4 with completed := true },
     evs4 ++ [AEvent.message_delta (mapStopReason (ch.finishReason.getD "")) st4.inTok st4.outTok,
              AEvent.message_stop])
  else (st, [])

/-- Process one parsed OpenAI chunk: skip a bare role chunk before any
content, otherwise run the content, tool-call and finish stages in the
order the source handles them, emitting their events in order. -/
def processChunk (st : AState) (ch : ChunkIn) : AState × List AEvent :=
  if ch.deltaRole = some "assistant" && !st.hasText && !st.hasTool then (st, [])
  else
    let r1 := contentStage st ch
    let r2 := toolStage r1.1 ch
    let r3 := finishStage r2.1 ch
    (r3.1, r1.2 ++ (r2.2 ++ r3.2))

/-- The consume loop (`stream_completed` stops processing further chunks). -/
def anthGo (st : AState) : List ChunkIn → List AEvent
  | [] => []
  | c :: rest =>
    if st.completed then []
    else
      let r := processChunk st c
      r.2 ++ anthGo r.1 rest

/-- `stream_anthropic_sse`: emit `message_start`, then translate the
OpenAI chunk stream. -/
def stream_anthropic_sse (chunks : List ChunkIn) : List AEvent :=
  AEvent.message_start :: anthGo {} chunks

/-- The indices of the `content_block_start` events, in emission order. -/
def startIndices (evs : List AEvent) : List Nat :=
  evs.foldr (fun ev acc =>
    match ev with
    | .content_block_start i _ => i :: acc
    | _ => acc) []

/-- The indices of the `content_block_stop` events, in emission order. -/
def stopIndices (evs : List AEvent) : List Nat :=
  evs.foldr (fun ev acc =>
    match ev with
    | .content_block_stop i => i :: acc
    | _ => acc) []

/-- The events preceding the first `message_delta`. -/
def beforeMessageDelta (evs : List AEvent) : List AEvent :=
  evs.takeWhile (fun ev => match ev with
    | .message_delta _ _ _ => false
    | _ => true)

/-- Does every `content_block_stop` close the most recently opened block
(same index as the latest preceding `content_block_start`)? -/
def stopsCloseLastStart : List AEvent → Option Nat → Bool
  | [], _ => true
  | ev :: rest, lastStart =>
    match ev with
    | .content_block_start i _ => stopsCloseLastStart rest (some i)
    | .content_block_stop i => lastStart = some i && stopsCloseLastStart rest lastStart
    | _ => stopsCloseLastStart rest lastStart

/-- Is a new start index admissible given the last start index? -/
def lsOk (ls : Option Nat) (i : Nat) : Bool :=
  match ls with
  | some j => decide (j ≤ i)
  | none => true

/-- Event-discipline scanner: every `content_block_start` must carry an
index no smaller than the previous start, every `content_block_stop` the
index of the most recent start; returns the final last-start on success. -/
def scanEvents : List AEvent → Option Nat → Option (Option Nat)
  | [], ls => some ls
  | .content_block_start i _ :: rest, ls =>
    if lsOk ls i then scanEvents rest (some i) else none
  | .content_block_stop i :: rest, ls =>
    if ls = some i then scanEvents rest ls else none
  | _ :: rest, ls => scanEvents rest ls

/-- The last-start value the scanner invariant assigns to a translator
state: the current index while a block is open, nothing before the first
block. -/
def invLS (st : AState) : Option Nat :=
  if st.hasText || st.hasTool then some st.contentIndex else none

/-- Chain property continued from an optional previous start index. -/
def chainFrom (ls : Option Nat) (l : List Nat) : Prop :=
  match ls with
  | none => List.Chain' (· ≤ ·) l
  | some j => List.Chain' (· ≤ ·) (j :: l)

/-! ### `warp2protobuf/warp/api_client.py` — `_decode_payload_bytes`

Bytes are modelled as `Nat` values below 256.  The base64 decoder models
CPython `binascii.a2b_base64` in its default non-strict mode: characters
outside the alphabet are discarded, a `=` is counted as padding only once
two data characters of the current group have been seen, decoding stops
successfully when padding completes a group, and leftover data characters
at the end are an error. -/

/-- Value of a hex digit. -/
def hexVal (c : Char) : Option Nat :=
  if '0' ≤ c ∧ c ≤ '9' then some (c.toNat - '0'.toNat)
  else if 'a' ≤ c ∧ c ≤ 'f' then some (c.toNat - 'a'.toNat + 10)
  else if 'A' ≤ c ∧ c ≤ 'F' then some (c.toNat - 'A'.toNat + 10)
  else none

/-- `bytes.fromhex` on a whitespace-free string: pairs of hex digits;
an odd number of digits (or a non-digit) fails. -/
def bytesFromHex : List Char → Option (List Nat)
  | [] => some []
  | [_] => none
  | c1 :: c2 :: rest =>
    match hexVal c1, hexVal c2, bytesFromHex rest with
    | some h, some l, some bs => some ((h * 16 + l) :: bs)
    | _, _, _ => none

/-- Value of a standard-alphabet base64 character. -/
def b64Val (c : Char) : Option Nat :=
  if 'A' ≤ c ∧ c ≤ 'Z' then some (c.toNat - 'A'.toNat)
  else if 'a' ≤ c ∧ c ≤ 'z' then some (c.toNat - 'a'.toNat + 26)
  else if '0' ≤ c ∧ c ≤ '9' then some (c.toNat - '0'.toNat + 52)
  else if c = '+' then some 62
  else if c = '/' then some 63
  else none

/-- Decode a complete group of four 6-bit values into three bytes. -/
def quadDecode (a b c d : Nat) : List Nat :=
  [a * 4 + b / 16, (b % 16) * 16 + c / 4, (c % 4) * 64 + d]

/-- Decode a padded partial group (two or three data characters). -/
def partialDecode : List Nat → List Nat
  | [a, b] => [a * 4 + b / 16]
  | [a, b, c] => [a * 4 + b / 16, (b % 16) * 16 + c / 4]
  | _ => []

/-- The scanning loop of `binascii.a2b_base64` (non-strict mode). -/
def a2bGo : List Char → List Nat → Nat → List Nat → Option (List Nat)
  | [], quad, _, out => if quad = [] then some out else none
  | c :: rest, quad, pads, out =>
    if c = '=' then
      if 2 ≤ quad.length then
        if 4 ≤ quad.length + (pads + 1) then some (out ++ partialDecode quad)
        else a2bGo rest quad (pads + 1) out
      else a2bGo rest quad pads out
    else
      match b64Val c with
      | some v =>
        match quad with
        | [a, b, cc] => a2bGo rest [] 0 (out ++ quadDecode a b cc v)
        | _ => a2bGo rest (quad ++ [v]) pads out
      | none => a2bGo rest quad pads out

/-- `base64.b64decode` (default `validate=False`). -/
def b64decode (s : List Char) : Option (List Nat) :=
  a2bGo s [] 0 []

/-- The alphabet translation of `base64.urlsafe_b64decode`. -/
def urlsafeTranslate (c : Char) : Char :=
  if c = '-' then '+' else if c = '_' then '/' else c

/-- `base64.urlsafe_b64decode`. -/
def urlsafeB64decode (s : List Char) : Option (List Nat) :=
  b64decode (s.map urlsafeTranslate)

/-- Does the whitespace-stripped payload fully match `[0-9a-fA-F]+`? -/
def isHexPayload (s : String) : Bool :=
  s ≠ "" && s.toList.all (fun c => (hexVal c).isSome)

/-- The padding repair `"=" * ((4 - (len(s) % 4)) % 4)`. -/
def padRepair (s : List Char) : List Char :=
  s ++ List.replicate ((4 - s.length % 4) % 4) '='

/-- `_decode_payload_bytes`: strip all whitespace; an empty remainder
yields no frame; a full `[0-9a-fA-F]+` match is hex-decoded (falling
through on failure, i.e. an odd digit count); otherwise URL-safe base64
with padding repair, then standard base64; `none` when undecodable. -/
def decode_payload_bytes (data_str : String) : Option (List Nat) :=
  let s := stripAllWs data_str
  if s = "" then none
  else
    let afterHex := if isHexPayload s then bytesFromHex s.toList else none
    match afterHex with
    | some bs => some bs
    | none =>
      match urlsafeB64decode (padRepair s.toList) with
      | some bs => some bs
      | none => b64decode (padRepair s.toList)

/-! ### `warp_token_pool.py` — maintenance cycle -/

/-- `TokenStatus`. -/
inductive TokenStatus where
  | valid
  | expired
  | rate_limited
  | unknown
deriving DecidableEq, Repr

/-- `TokenInfo`, reduced to what maintenance reads: the JWT `exp` claim of
the token (`none` for an undecodable token) and the status. -/
structure TokenInfo where
  exp : Option Int
  status : TokenStatus
deriving DecidableEq, Repr

/-- `is_token_expired` with the default 5-minute buffer:
`(exp - now) <= 300`, and `True` for an undecodable token. -/
def tokenIsExpired (now : Int) (t : TokenInfo) : Bool :=
  match t.exp with
  | none => true
  | some e => e - now ≤ 300

/-- `_cleanup_invalid_tokens`: keep only valid, unexpired entries. -/
def cleanupInvalidTokens (now : Int) (tokens : List TokenInfo) : List TokenInfo :=
  tokens.filter (fun t => t.status = .valid && !tokenIsExpired now t)

/-- The `valid_count` of `_ensure_pool_health`. -/
def poolValidCount (now : Int) (tokens : List TokenInfo) : Nat :=
  (tokens.filter (fun t => t.status = .valid && !tokenIsExpired now t)).length

/-- `_ensure_pool_health`, with the scheduled `_create_and_add_token`
acquisitions already completed: when the valid count is at or below
`(pool_size + 1) // 2`, append `pool_size - valid_count` tokens from the
supply of freshly acquired ones. -/
def ensurePoolHealth (poolSize : Nat) (now : Int) (tokens : List TokenInfo)
    (fresh : List TokenInfo) : List TokenInfo :=
  let validCount := poolValidCount now tokens
  let threshold := (poolSize + 1) / 2
  if validCount ≤ threshold then tokens ++ fresh.take (poolSize - validCount)
  else tokens

/-- One `_background_maintenance` iteration: cleanup, then health refill. -/
def maintenanceCycle (poolSize : Nat) (now : Int) (tokens : List TokenInfo)
    (fresh : List TokenInfo) : List TokenInfo :=
  ensurePoolHealth poolSize now (cleanupInvalidTokens now tokens) fresh

/-- Messages that are neither tool results nor assistant tool-call blocks. -/
def plainMsg (m : ChatMessage) : Bool :=
  m.role ≠ "tool" && !(tcsTruthy m.tool_calls)

/-! ### Concrete inputs used by the claim theorems -/

/-- A user message with plain string content. -/
def userMsg (s : String) : ChatMessage := { role := "user", content := some (.str s) }

/-- A tool-result message. -/
def toolMsg (i : Option String) (s : String) : ChatMessage :=
  { role := "tool", content := some (.str s), tool_call_id := i }

/-- An assistant message carrying the given tool calls. -/
def asstTc (tcs : List ToolCall) : ChatMessage :=
  { role := "assistant", content := some (.str ""), tool_calls := some tcs }

/-- C1 input: a public request whose normalized history ends with an
assistant message still carrying a tool call (one without an id, so pass B
keeps it). -/
def c1PublicHistory : List ChatMessage :=
  [userMsg "q", asstTc [⟨none, some "f"⟩]]

/-- C2 input: an assistant block whose collection also picks up a
blank tool result with a non-matching id. -/
def c2Messages : List ChatMessage :=
  [asstTc [⟨some "a", none⟩], toolMsg (some "a") "r", toolMsg (some "b") ""]

/-- C4 input: two tool-use blocks opened in succession, then a clean finish. -/
def c4Chunks : List ChunkIn :=
  [{ deltaToolCalls := some [⟨some "c1", some "f1", none⟩] },
   { deltaToolCalls := some [⟨some "c2", some "f2", none⟩] },
   { finishReason := some "tool_calls", usage := some (5, 7) }]

/-- C5 input: 1001 characters with a paragraph break near the split point,
so the first chunk is 996 characters before the marker is attached. -/
def c5Text : String :=
  String.mk (List.replicate 994 'a') ++ "\n\n" ++ String.mk (List.replicate 5 'a')

/-- C6 input: a `context_window_info` ratio of 3/128, whose product with
the 200k window is 4687.5 — truncation and rounding disagree. -/
def c6Cwi : CWInfo := .dict (some (3 / 128)) none none

/-- C7 input: the four-message history on which the normalizer is not
idempotent (the second pass defers the tool-call assistant past the plain
assistant because the trailing tool result reads as the final input). -/
def c7History : List ChatMessage :=
  [asstTc [⟨some "a", none⟩],
   { role := "assistant", content := some (.str "") },
   toolMsg (some "a") "",
   toolMsg (some "b") ""]

/-- C9 input: a pool of four valid unexpired credentials (reachable when
several fire-and-forget refill tasks overshoot the pool size). -/
def c9Pool : List TokenInfo := List.replicate 4 ⟨some 100000, .valid⟩

/-- C10 input: one tool result whose id matches no assistant tool call. -/
def c10Messages : List ChatMessage := [toolMsg (some "x") "r"]

/-! ### Claim theorems -/

theorem collectResults_rest_length (expected : List String) :
    ∀ l : List ChatMessage, (collectResults expected l).rest.length ≤ l.length := by
  intro l
  induction l with
  | nil => simp [collectResults]
  | cons nm rest ih =>
    simp only [collectResults]
    split
    · exact Nat.le_trans ih (Nat.le_succ _)
    · split
      · exact Nat.le_trans ih (Nat.le_succ _)
      · simp

theorem cleanGo_fuel_irrelevant :
    ∀ (f₁ f₂ : Nat) (fixed rest : List ChatMessage),
      rest.length ≤ f₁ → rest.length ≤ f₂ →
      cleanGo f₁ fixed rest = cleanGo f₂ fixed rest := by
  intro f₁
  induction f₁ with
  | zero =>
    intro f₂ fixed rest h1 _
    have hnil : rest = [] := List.eq_nil_of_length_eq_zero (Nat.le_zero.mp h1)
    subst hnil
    cases f₂ <;> simp [cleanGo]
  | succ n ih =>
    intro f₂ fixed rest h1 h2
    cases f₂ with
    | zero =>
      have hnil : rest = [] := List.eq_nil_of_length_eq_zero (Nat.le_zero.mp h2)
      subst hnil
      simp [cleanGo]
    | succ m =>
      match rest with
      | [] => simp [cleanGo]
      | cur :: rest' =>
        have hcr := collectResults_rest_length (idsOfTcs (cur.tool_calls.getD [])) rest'
        simp only [cleanGo]
        simp only [List.length_cons] at h1 h2
        split_ifs
        all_goals exact ih m _ _ (by omega) (by omega)

/-- C1 counterexample: for the public request `[user "q",
assistant{tool_calls:[{name:"f"}]}]` the post-normalization history is the
same non-empty two-message list, its final message is an assistant still
carrying tool calls, and `attach_user_and_tools_to_inputs` appends
nothing — `input.user_inputs.inputs` stays empty, refuting the claim that
the packet always contains at least one input in that case. -/
theorem c1_counterexample :
    normalizeHistory c1PublicHistory = c1PublicHistory ∧
    c1PublicHistory ≠ [] ∧
    (∃ last, c1PublicHistory.getLast? = some last ∧
      last.role = "assistant" ∧ tcsTruthy last.tool_calls = true) ∧
    packetInputs c1PublicHistory none = .ok [] := by
  refine ⟨by decide, by decide, ⟨asstTc [⟨none, some "f"⟩], by decide, by decide, by decide⟩, by decide⟩

/-- C2 counterexample: on `[assistant{tool_calls:[a]}, tool a "r",
tool b ""]` the cleaner keeps the blank tool result `b` (collected after an
assistant whose tool-call ids do not include `b`) with its empty content
instead of rewriting it to "No content". -/
theorem c2_counterexample :
    clean_incomplete_tool_calls c2Messages =
      [asstTc [⟨some "a", none⟩], toolMsg (some "a") "r", toolMsg (some "b") ""] ∧
    (clean_incomplete_tool_calls c2Messages).any
      (fun m => m.role = "tool" && contentBlank m.content) = true := by
  exact ⟨by decide, by decide⟩

/-- C3 counterexample: the streaming and non-streaming recovery drivers
append the Chinese literal `"\n\n[系统自动恢复] …"`, not the English
`"\n\n[system auto-recovery] …"` the claim states, and a query already
carrying the English marker is not skipped (the marker checked is the
Chinese one). -/
theorem c3_counterexample :
    mutateQueryForInternalTool "q" (some "read_files") ≠
      "q" ++ specInternalToolRecoveryText "read_files" ∧
    mutateQueryForInternalTool ("q" ++ specInternalToolRecoveryText "read_files")
        (some "read_files") ≠
      "q" ++ specInternalToolRecoveryText "read_files" := by
  exact ⟨by decide, by decide⟩

theorem collectResults_trs_mem (e : List String) :
    ∀ (l : List ChatMessage) (m : ChatMessage), m ∈ (collectResults e l).trs →
      m ∈ l ∨ m.content = some (.str "No content") := by
  intro l
  induction l with
  | nil => intro m hm; simp [collectResults] at hm
  | cons nm rest ih =>
    intro m hm
    simp only [collectResults] at hm
    split at hm
    · rcases List.mem_cons.mp hm with h | h
      · subst h
        split
        · exact Or.inr rfl
        · exact Or.inl (List.mem_cons_self _ _)
      · rcases ih m h with h' | h'
        · exact Or.inl (List.mem_cons_of_mem _ h')
        · exact Or.inr h'
    · split at hm
      · rcases ih m hm with h' | h'
        · exact Or.inl (List.mem_cons_of_mem _ h')
        · exact Or.inr h'
      · simp at hm

theorem collectResults_ints_mem (e : List String) :
    ∀ (l : List ChatMessage) (m : ChatMessage), m ∈ (collectResults e l).ints → m ∈ l := by
  intro l
  induction l with
  | nil => intro m hm; simp [collectResults] at hm
  | cons nm rest ih =>
    intro m hm
    simp only [collectResults] at hm
    split at hm
    · exact List.mem_cons_of_mem _ (ih m hm)
    · split at hm
      · rcases List.mem_cons.mp hm with h | h
        · subst h; exact List.mem_cons_self _ _
        · exact List.mem_cons_of_mem _ (ih m h)
      · simp at hm

theorem collectResults_rest_mem (e : List String) :
    ∀ (l : List ChatMessage) (m : ChatMessage), m ∈ (collectResults e l).rest → m ∈ l := by
  intro l
  induction l with
  | nil => intro m hm; simp [collectResults] at hm
  | cons nm rest ih =>
    intro m hm
    simp only [collectResults] at hm
    split at hm
    · exact List.mem_cons_of_mem _ (ih m hm)
    · split at hm
      · exact List.mem_cons_of_mem _ (ih m hm)
      · exact hm

theorem isAssistantTcBlock_role {m : ChatMessage} (h : isAssistantTcBlock m = true) :
    m.role = "assistant" := by
  unfold isAssistantTcBlock at h
  rw [Bool.and_eq_true, decide_eq_true_iff] at h
  exact h.1

theorem cleanGo_mem :
    ∀ (fuel : Nat) (rest fixed : List ChatMessage) (m : ChatMessage),
      m ∈ cleanGo fuel fixed rest →
      m ∈ fixed ∨ m ∈ rest ∨ m.role = "assistant" ∨
        m.content = some (.str "No content") := by
  intro fuel
  induction fuel with
  | zero =>
    intro rest fixed m hm
    simp only [cleanGo] at hm
    rcases List.mem_append.mp hm with h | h
    · exact Or.inl h
    · exact Or.inr (Or.inl h)
  | succ fuel ih =>
    intro rest fixed m hm
    match rest with
    | [] =>
      simp only [cleanGo] at hm
      exact Or.inl hm
    | cur :: rest' =>
      simp only [cleanGo] at hm
      split at hm
      · next hblock =>
        have hrole := isAssistantTcBlock_role hblock
        split at hm
        · rcases ih _ _ m hm with h | h | h | h
          · rcases List.mem_append.mp h with h' | h'
            · rcases List.mem_append.mp h' with h'' | h''
              · rcases List.mem_append.mp h'' with h3 | h3
                · exact Or.inl h3
                · -- assistantPart: both shapes have role cur.role = "assistant"
                  right; right; left
                  split at h3
                  · simp only [List.mem_singleton] at h3
                    subst h3
                    exact hrole
                  · split at h3
                    · simp only [List.mem_singleton] at h3
                      subst h3
                      exact hrole
                    · simp at h3
              · -- keptTrs ⊆ collect trs
                have := collectResults_trs_mem _ _ m (List.mem_of_mem_filter h'')
                rcases this with h4 | h4
                · exact Or.inr (Or.inl (List.mem_cons_of_mem _ h4))
                · exact Or.inr (Or.inr (Or.inr h4))
            · have := collectResults_ints_mem _ _ m h'
              exact Or.inr (Or.inl (List.mem_cons_of_mem _ this))
          · exact Or.inr (Or.inl (List.mem_cons_of_mem _ (collectResults_rest_mem _ _ m h)))
          · exact Or.inr (Or.inr (Or.inl h))
          · exact Or.inr (Or.inr (Or.inr h))
        · rcases ih _ _ m hm with h | h | h | h
          · rcases List.mem_append.mp h with h' | h'
            · rcases List.mem_append.mp h' with h'' | h''
              · rcases List.mem_append.mp h'' with h3 | h3
                · exact Or.inl h3
                · simp only [List.mem_singleton] at h3
                  subst h3
                  exact Or.inr (Or.inl (List.mem_cons_self _ _))
              · have := collectResults_trs_mem _ _ m h''
                rcases this with h4 | h4
                · exact Or.inr (Or.inl (List.mem_cons_of_mem _ h4))
                · exact Or.inr (Or.inr (Or.inr h4))
            · have := collectResults_ints_mem _ _ m h'
              exact Or.inr (Or.inl (List.mem_cons_of_mem _ this))
          · exact Or.inr (Or.inl (List.mem_cons_of_mem _ (collectResults_rest_mem _ _ m h)))
          · exact Or.inr (Or.inr (Or.inl h))
          · exact Or.inr (Or.inr (Or.inr h))
      · split at hm
        · split at hm
          · split at hm
            · rcases ih _ _ m hm with h | h | h | h
              · rcases List.mem_append.mp h with h' | h'
                · exact Or.inl h'
                · simp only [List.mem_singleton] at h'
                  subst h'
                  exact Or.inr (Or.inr (Or.inr rfl))
              · exact Or.inr (Or.inl (List.mem_cons_of_mem _ h))
              · exact Or.inr (Or.inr (Or.inl h))
              · exact Or.inr (Or.inr (Or.inr h))
            · rcases ih _ _ m hm with h | h | h | h
              · exact Or.inl h
              · exact Or.inr (Or.inl (List.mem_cons_of_mem _ h))
              · exact Or.inr (Or.inr (Or.inl h))
              · exact Or.inr (Or.inr (Or.inr h))
          · split at hm
            · rcases ih _ _ m hm with h | h | h | h
              · rcases List.mem_append.mp h with h' | h'
                · exact Or.inl h'
                · simp only [List.mem_singleton] at h'
                  subst h'
                  exact Or.inr (Or.inl (List.mem_cons_self _ _))
              · exact Or.inr (Or.inl (List.mem_cons_of_mem _ h))
              · exact Or.inr (Or.inr (Or.inl h))
              · exact Or.inr (Or.inr (Or.inr h))
            · rcases ih _ _ m hm with h | h | h | h
              · exact Or.inl h
              · exact Or.inr (Or.inl (List.mem_cons_of_mem _ h))
              · exact Or.inr (Or.inr (Or.inl h))
              · exact Or.inr (Or.inr (Or.inr h))
        · rcases ih _ _ m hm with h | h | h | h
          · rcases List.mem_append.mp h with h' | h'
            · exact Or.inl h'
            · simp only [List.mem_singleton] at h'
              subst h'
              exact Or.inr (Or.inl (List.mem_cons_self _ _))
          · exact Or.inr (Or.inl (List.mem_cons_of_mem _ h))
          · exact Or.inr (Or.inr (Or.inl h))
          · exact Or.inr (Or.inr (Or.inr h))

/-- C2 amended: any blank tool-result appearing in the output of
`clean_incomplete_tool_calls` is an unmodified input message — the cleaner
never produces a blank tool-result of its own (rewritten results carry
"No content"); blanks survive only on the non-matching-id path. -/
theorem c2_amended (msgs : List ChatMessage) (m : ChatMessage)
    (hm : m ∈ clean_incomplete_tool_calls msgs) (hrole : m.role = "tool")
    (hblank : contentBlank m.content = true) : m ∈ msgs := by
  unfold clean_incomplete_tool_calls at hm
  by_cases hnil : msgs = []
  · rw [if_pos hnil] at hm
    exact hm
  · rw [if_neg hnil] at hm
    rcases cleanGo_mem msgs.length msgs [] m hm with h | h | h | h
    · simp at h
    · exact h
    · rw [hrole] at h
      simp at h
    · rw [h] at hblank
      simp [contentBlank, contentTruthy, pyStrip, isPyWs] at hblank

/-- C2 amended witness: the surviving blank tool-result `b` of the
counterexample is the original input message. -/
theorem c2_amended_witness : toolMsg (some "b") "" ∈ c2Messages :=
  c2_amended c2Messages (toolMsg (some "b") "") (by decide) (by decide) (by decide)

theorem infix_append_left {α : Type} (a b c : List α) (h : a <:+: c) : a <:+: b ++ c := by
  obtain ⟨s, t, hst⟩ := h
  exact ⟨b ++ s, t, by rw [← hst]; simp⟩

theorem infix_append_right {α : Type} (a b c : List α) (h : a <:+: b) : a <:+: b ++ c := by
  obtain ⟨s, t, hst⟩ := h
  exact ⟨s, t ++ c, by rw [← hst]; simp⟩

/-- Membership of a substring is preserved by appending on the left. -/
theorem pyIn_append_of_right (m q r : String) (h : pyIn m r = true) :
    pyIn m (q ++ r) = true := by
  unfold pyIn at h ⊢
  rw [decide_eq_true_iff] at h ⊢
  simp only [String.toList, String.data_append]
  exact infix_append_left _ _ _ h

/-- The Chinese recovery marker occurs in every internal-tool recovery text. -/
theorem pyIn_marker_recovery (t : String) :
    pyIn internalToolMarker (internalToolRecoveryText t) = true := by
  unfold pyIn internalToolRecoveryText
  rw [decide_eq_true_iff]
  simp only [String.toList, String.data_append]
  exact infix_append_right _ _ _ (infix_append_right _ _ _ (by decide))

/-- C3 amended: on a first recoverable INTERNAL_TOOL error with a tool
name, the driver appends exactly the Chinese literal
`"\n\n[系统自动恢复] 请继续之前的任务，但不要使用 <tool_name> 工具。可用的工具包括：
Read、Write、Edit、Bash、Glob、Grep 等 MCP 工具。"` to the last
`user_query.query`, and the append is skipped when the Chinese marker
`"[系统自动恢复]"` is already present — the mutation is idempotent. -/
theorem c3_amended (q t : String) :
    (pyIn internalToolMarker q = false →
      mutateQueryForInternalTool q (some t) = q ++ internalToolRecoveryText t) ∧
    mutateQueryForInternalTool (mutateQueryForInternalTool q (some t)) (some t) =
      mutateQueryForInternalTool q (some t) := by
  constructor
  · intro hq
    simp [mutateQueryForInternalTool, hq]
  · by_cases hq : pyIn internalToolMarker q = true
    · simp [mutateQueryForInternalTool, hq]
    · have hq' : pyIn internalToolMarker q = false := by
        simpa using hq
      have h1 : mutateQueryForInternalTool q (some t) = q ++ internalToolRecoveryText t := by
        simp [mutateQueryForInternalTool, hq']
      rw [h1]
      have h2 : pyIn internalToolMarker (q ++ internalToolRecoveryText t) = true :=
        pyIn_append_of_right _ _ _ (pyIn_marker_recovery t)
      simp [mutateQueryForInternalTool, h2, h1]

/-- C3 amended witness: a marker-free query receives exactly the Chinese hint. -/
theorem c3_amended_witness :
    mutateQueryForInternalTool "hello" (some "read_files") =
      "hello" ++ internalToolRecoveryText "read_files" :=
  (c3_amended "hello" "read_files").1 (by decide)

theorem scanEvents_append :
    ∀ (a b : List AEvent) (ls : Option Nat),
      scanEvents (a ++ b) ls = (scanEvents a ls).bind (fun ls' => scanEvents b ls') := by
  intro a
  induction a with
  | nil => intro b ls; rfl
  | cons ev rest ih =>
    intro b ls
    match ev with
    | .content_block_start i _ =>
      simp only [List.cons_append, scanEvents]
      split
      · exact ih b (some i)
      · rfl
    | .content_block_stop i =>
      simp only [List.cons_append, scanEvents]
      split
      · exact ih b ls
      · rfl
    | .message_start => exact ih b ls
    | .content_block_delta i p => exact ih b ls
    | .message_delta r it ot => exact ih b ls
    | .message_stop => exact ih b ls

theorem ptd_scan (st : AState) (tc : TCDelta) :
    scanEvents (processToolDelta st tc).2 (invLS st) =
      some (invLS (processToolDelta st tc).1) := by
  by_cases hnew : (optStrTruthy tc.id && optStrTruthy tc.fnName) = true
  · by_cases ht : st.hasText
    · by_cases hl : st.hasTool
      · by_cases ha : optStrTruthy tc.fnArgs = true <;>
          simp [processToolDelta, hnew, ht, hl, ha, invLS, scanEvents, lsOk] <;> omega
      · by_cases ha : optStrTruthy tc.fnArgs = true <;>
          simp [processToolDelta, hnew, ht, hl, ha, invLS, scanEvents, lsOk]
    · by_cases hl : st.hasTool
      · by_cases ha : optStrTruthy tc.fnArgs = true <;>
          simp [processToolDelta, hnew, ht, hl, ha, invLS, scanEvents, lsOk]
      · by_cases ha : optStrTruthy tc.fnArgs = true <;>
          simp [processToolDelta, hnew, ht, hl, ha, invLS, scanEvents, lsOk]
  · by_cases ha : (st.currentTool && optStrTruthy tc.fnArgs) = true <;>
      simp [processToolDelta, hnew, ha, invLS, scanEvents, lsOk]

theorem toolFold_scan :
    ∀ (l : List TCDelta) (st : AState) (acc : List AEvent) (ls : Option Nat),
      scanEvents acc ls = some (invLS st) →
      scanEvents (l.foldl (fun (acc : AState × List AEvent) tc =>
        let r := processToolDelta acc.1 tc
        (r.1, acc.2 ++ r.2)) (st, acc)).2 ls =
        some (invLS (l.foldl (fun (acc : AState × List AEvent) tc =>
          let r := processToolDelta acc.1 tc
          (r.1, acc.2 ++ r.2)) (st, acc)).1) := by
  intro l
  induction l with
  | nil => intro st acc ls h; simpa using h
  | cons tc rest ih =>
    intro st acc ls h
    simp only [List.foldl_cons]
    apply ih
    rw [scanEvents_append, h]
    exact ptd_scan st tc

theorem contentStage_scan (st : AState) (ch : ChunkIn) :
    scanEvents (contentStage st ch).2 (invLS st) =
      some (invLS (contentStage st ch).1) := by
  by_cases hc : optStrTruthy ch.deltaContent = true
  · by_cases ht : st.hasText
    · simp [contentStage, hc, ht, invLS, scanEvents, lsOk]
    · by_cases hl : st.hasTool
      · simp [contentStage, hc, ht, hl, invLS, scanEvents, lsOk]
      · simp [contentStage, hc, ht, hl, invLS, scanEvents, lsOk]
  · simp [contentStage, hc, scanEvents]

theorem toolStage_scan (st : AState) (ch : ChunkIn) :
    scanEvents (toolStage st ch).2 (invLS st) =
      some (invLS (toolStage st ch).1) := by
  unfold toolStage
  match ch.deltaToolCalls with
  | none => simp [scanEvents]
  | some l =>
    dsimp only
    by_cases hl : l = []
    · simp [hl, scanEvents]
    · rw [if_pos hl]
      exact toolFold_scan l st [] (invLS st) rfl

theorem finishStage_scan (st : AState) (ch : ChunkIn) :
    scanEvents (finishStage st ch).2 (invLS st) =
      some (invLS (finishStage st ch).1) := by
  by_cases hf : optStrTruthy ch.finishReason = true
  · match hu : ch.usage with
    | some (p, c) =>
      by_cases ht : st.hasText
      · simp [finishStage, hf, hu, ht, invLS, scanEvents, lsOk]
      · by_cases hl : st.hasTool
        · simp [finishStage, hf, hu, ht, hl, invLS, scanEvents, lsOk]
        · simp [finishStage, hf, hu, ht, hl, invLS, scanEvents, lsOk]
    | none =>
      by_cases ht : st.hasText
      · simp [finishStage, hf, hu, ht, invLS, scanEvents, lsOk]
      · by_cases hl : st.hasTool
        · simp [finishStage, hf, hu, ht, hl, invLS, scanEvents, lsOk]
        · simp [finishStage, hf, hu, ht, hl, invLS, scanEvents, lsOk]
  · simp [finishStage, hf, scanEvents]

theorem pchunk_scan (st : AState) (ch : ChunkIn) :
    scanEvents (processChunk st ch).2 (invLS st) =
      some (invLS (processChunk st ch).1) := by
  unfold processChunk
  by_cases hrole : (ch.deltaRole = some "assistant" && !st.hasText && !st.hasTool) = true
  · simp [hrole, scanEvents]
  · rw [if_neg hrole]
    dsimp only
    rw [scanEvents_append, contentStage_scan]
    simp only [Option.some_bind]
    rw [scanEvents_append, toolStage_scan]
    simp only [Option.some_bind]
    exact finishStage_scan _ ch

theorem anthGo_scan :
    ∀ (chunks : List ChunkIn) (st : AState),
      (scanEvents (anthGo st chunks) (invLS st)).isSome = true := by
  intro chunks
  induction chunks with
  | nil => intro st; simp [anthGo, scanEvents]
  | cons c rest ih =>
    intro st
    simp only [anthGo]
    by_cases hcp : st.completed = true
    · simp [hcp, scanEvents]
    · rw [if_neg (by simp [hcp])]
      rw [scanEvents_append, pchunk_scan]
      simp only [Option.some_bind]
      exact ih (processChunk st c).1

theorem scan_chain :
    ∀ (evs : List AEvent) (ls ls' : Option Nat), scanEvents evs ls = some ls' →
      chainFrom ls (startIndices evs) := by
  intro evs
  induction evs with
  | nil =>
    intro ls ls' _
    match ls with
    | none => simp [chainFrom, startIndices]
    | some j => simp [chainFrom, startIndices]
  | cons ev rest ih =>
    intro ls ls' h
    match ev with
    | .content_block_start i b =>
      simp only [scanEvents] at h
      split at h
      · next hok =>
        have hrest := ih (some i) ls' h
        have heq : startIndices (AEvent.content_block_start i b :: rest) =
            i :: startIndices rest := by simp [startIndices]
        rw [heq]
        match ls with
        | none => exact hrest
        | some j =>
          unfold chainFrom at hrest ⊢
          refine List.Chain'.cons ?_ hrest
          unfold lsOk at hok
          exact decide_eq_true_iff.mp hok
      · exact absurd h (by simp)
    | .content_block_stop i =>
      simp only [scanEvents] at h
      split at h
      · have hrest := ih ls ls' h
        have heq : startIndices (AEvent.content_block_stop i :: rest) =
            startIndices rest := by simp [startIndices]
        rw [heq]
        exact hrest
      · exact absurd h (by simp)
    | .message_start =>
      have hrest := ih ls ls' h
      have heq : startIndices (AEvent.message_start :: rest) = startIndices rest := by
        simp [startIndices]
      rw [heq]
      exact hrest
    | .content_block_delta i p =>
      have hrest := ih ls ls' h
      have heq : startIndices (AEvent.content_block_delta i p :: rest) =
          startIndices rest := by simp [startIndices]
      rw [heq]
      exact hrest
    | .message_delta r it ot =>
      have hrest := ih ls ls' h
      have heq : startIndices (AEvent.message_delta r it ot :: rest) =
          startIndices rest := by simp [startIndices]
      rw [heq]
      exact hrest
    | .message_stop =>
      have hrest := ih ls ls' h
      have heq : startIndices (AEvent.message_stop :: rest) = startIndices rest := by
        simp [startIndices]
      rw [heq]
      exact hrest

theorem scan_stops :
    ∀ (evs : List AEvent) (ls ls' : Option Nat), scanEvents evs ls = some ls' →
      stopsCloseLastStart evs ls = true := by
  intro evs
  induction evs with
  | nil => intro ls ls' _; rfl
  | cons ev rest ih =>
    intro ls ls' h
    match ev with
    | .content_block_start i b =>
      simp only [scanEvents] at h
      split at h
      · exact ih (some i) ls' h
      · exact absurd h (by simp)
    | .content_block_stop i =>
      simp only [scanEvents] at h
      split at h
      · next heq =>
        simp only [stopsCloseLastStart, Bool.and_eq_true]
        exact ⟨by simp [heq], ih ls ls' h⟩
      · exact absurd h (by simp)
    | .message_start => exact ih ls ls' h
    | .content_block_delta i p => exact ih ls ls' h
    | .message_delta r it ot => exact ih ls ls' h
    | .message_stop => exact ih ls ls' h

/-- C4 amended: the index sequence of `content_block_start` events is
non-decreasing (content_index is never decreased), and every
`content_block_stop` closes the most recently opened block at exactly its
index; start and stop events are however not matched one-to-one — with
several successive tool_use blocks only the last open block is closed
before `message_delta`, and an index may be reused by a text block opened
while a tool block is open. -/
theorem c4_amended (chunks : List ChunkIn) :
    List.Chain' (· ≤ ·) (startIndices (stream_anthropic_sse chunks)) ∧
    stopsCloseLastStart (stream_anthropic_sse chunks) none = true := by
  have hgo := anthGo_scan chunks {}
  rw [Option.isSome_iff_exists] at hgo
  obtain ⟨ls', hls⟩ := hgo
  have hinv : invLS {} = none := rfl
  rw [hinv] at hls
  have hstream : scanEvents (stream_anthropic_sse chunks) none = some ls' := by
    unfold stream_anthropic_sse
    simpa [scanEvents] using hls
  constructor
  · have := scan_chain _ none ls' hstream
    exact this
  · exact scan_stops _ none ls' hstream


/-- C4 counterexample: for two successive tool-use blocks followed by a
clean finish, the translator emits `content_block_start` at index 0 but no
`content_block_stop` at index 0 before `message_delta` — the earlier tool
block is never closed. -/
theorem c4_counterexample :
    0 ∈ startIndices (stream_anthropic_sse c4Chunks) ∧
    (stopIndices (beforeMessageDelta (stream_anthropic_sse c4Chunks))).count 0 = 0 := by
  exact ⟨by decide, by decide⟩

/-- C1 amended: the packet contains at least one input whenever the final
post-normalization message is a user message, a tool result with a truthy
tool_call_id, or an assistant message without tool calls; when the final
message is an assistant still carrying tool calls (and for the remaining
role shapes) nothing is attached. -/
theorem c1_amended (h : List ChatMessage) (sp : Option String) (last : ChatMessage)
    (hlast : h.getLast? = some last)
    (hok : last.role = "user" ∨
      (last.role = "tool" ∧ optStrTruthy last.tool_call_id = true) ∨
      (last.role = "assistant" ∧ tcsTruthy last.tool_calls = false)) :
    ∃ l, attach_user_and_tools_to_inputs h sp = .ok l ∧ l ≠ [] := by
  unfold attach_user_and_tools_to_inputs
  rw [hlast]
  dsimp only
  rcases hok with hu | ⟨ht, hid⟩ | ⟨ha, htc⟩
  · rw [if_pos hu]
    exact ⟨_, rfl, by simp⟩
  · have hru : last.role ≠ "user" := by rw [ht]; decide
    rw [if_neg hru, if_pos (by rw [ht, hid]; rfl)]
    exact ⟨_, rfl, by simp⟩
  · have hru : last.role ≠ "user" := by rw [ha]; decide
    have hrt : ¬(last.role = "tool" && optStrTruthy last.tool_call_id) = true := by
      rw [ha]; simp
    rw [if_neg hru, if_neg hrt, if_pos ha, if_neg (by rw [htc]; exact Bool.false_ne_true)]
    exact ⟨_, rfl, by simp⟩

/-- C1 amended witness: instantiated for the single-user-message history. -/
theorem c1_amended_witness :
    ∃ l, attach_user_and_tools_to_inputs [userMsg "hi"] none = .ok l ∧ l ≠ [] :=
  c1_amended [userMsg "hi"] none (userMsg "hi") (by decide) (Or.inl (by decide))

/-- C5 counterexample: for a 1001-character tool-result text the splitter
produces a 996-character first chunk, and attaching the ` [1/2]` marker
makes the emitted text 1002 characters long — more than the claimed
1000-character bound. -/
theorem c5_counterexample :
    (segments_to_warp_results [⟨some "text", some c5Text⟩]).any
      (fun c => 1000 < c.text.toList.length) = true := by
  decide

theorem rfindIn_bounds (rem sub : List Char) (w p : Nat)
    (h : rfindIn rem sub w = some p) : sub.length ≤ w ∧ p + sub.length ≤ w := by
  unfold rfindIn at h
  split at h
  · next hw =>
    have hmem := List.mem_of_find?_eq_some h
    rw [List.mem_reverse, List.mem_range] at hmem
    omega
  · exact absurd h (by simp)

theorem bestSplit_pos (rem : List Char) : 1 ≤ bestSplit rem := by
  unfold bestSplit
  split
  · next sub hs =>
    have hp := List.find?_some hs
    cases hr : rfindIn rem sub 1000 with
    | none => rw [hr] at hp; simp at hp
    | some p =>
      rw [hr] at hp
      simp only [decide_eq_true_eq] at hp
      simp only [hr, Option.getD_some]
      omega
  · omega

theorem bestSplit_le (rem : List Char) : bestSplit rem ≤ 1000 := by
  unfold bestSplit
  split
  · next sub hs =>
    have hp := List.find?_some hs
    cases hr : rfindIn rem sub 1000 with
    | none => rw [hr] at hp; simp at hp
    | some p =>
      simp only [hr, Option.getD_some]
      exact (rfindIn_bounds rem sub 1000 p hr).2
  · exact Nat.le_refl 1000

theorem smartSplitGo_fuel_irrelevant :
    ∀ (f₁ f₂ : Nat) (rem : List Char), rem.length ≤ f₁ → rem.length ≤ f₂ →
      smartSplitGo f₁ rem = smartSplitGo f₂ rem := by
  intro f₁
  induction f₁ with
  | zero =>
    intro f₂ rem h1 _
    have hnil : rem = [] := List.eq_nil_of_length_eq_zero (Nat.le_zero.mp h1)
    subst hnil
    cases f₂ <;> simp [smartSplitGo]
  | succ n ih =>
    intro f₂ rem h1 h2
    cases f₂ with
    | zero =>
      have hnil : rem = [] := List.eq_nil_of_length_eq_zero (Nat.le_zero.mp h2)
      subst hnil
      simp [smartSplitGo]
    | succ m =>
      simp only [smartSplitGo]
      by_cases hle : rem.length ≤ 1000
      · rw [if_pos hle, if_pos hle]
      · rw [if_neg hle, if_neg hle]
        have hb1 := bestSplit_pos rem
        have hlen : (rem.drop (bestSplit rem)).length = rem.length - bestSplit rem :=
          List.length_drop _ _
        rw [ih m (rem.drop (bestSplit rem)) (by omega) (by omega)]

theorem smartSplitGo_chunk_le :
    ∀ (n : Nat) (rem : List Char), rem.length ≤ n →
      ∀ c ∈ smartSplitGo n rem, c.length ≤ 1000 := by
  intro n
  induction n with
  | zero =>
    intro rem h1 c hc
    have hnil : rem = [] := List.eq_nil_of_length_eq_zero (Nat.le_zero.mp h1)
    subst hnil
    simp [smartSplitGo] at hc
    simp [hc]
  | succ n ih =>
    intro rem h1 c hc
    simp only [smartSplitGo] at hc
    by_cases hle : rem.length ≤ 1000
    · rw [if_pos hle] at hc
      simp only [List.mem_singleton] at hc
      subst hc
      exact hle
    · rw [if_neg hle] at hc
      rcases List.mem_cons.mp hc with h | h
      · subst h
        have := bestSplit_le rem
        simp only [List.length_take]
        omega
      · have hb1 := bestSplit_pos rem
        have hlen : (rem.drop (bestSplit rem)).length = rem.length - bestSplit rem :=
          List.length_drop _ _
        exact ih (rem.drop (bestSplit rem)) (by omega) c h

theorem smart_split_chunk_le (text : List Char) :
    ∀ c ∈ smart_split_text text, c.length ≤ 1000 := by
  intro c hc
  unfold smart_split_text at hc
  by_cases hle : text.length ≤ 1000
  · rw [if_pos hle] at hc
    simp only [List.mem_singleton] at hc
    subst hc
    exact hle
  · rw [if_neg hle] at hc
    exact smartSplitGo_chunk_le text.length text (Nat.le_refl _) c hc

/-- C5 amended: every result of `segments_to_warp_results` is a
`{text:{text}}` object whose text is the `markChunk`-decorated form of a
core chunk of at most 1000 characters (with `i < n`, and no marker at all
when `n = 1`); the emitted text itself may exceed 1000 characters by the
length of the `[i/n]` marker. -/
theorem c5_amended (segs : List Seg) (r : WarpChunk)
    (hr : r ∈ segments_to_warp_results segs) :
    ∃ core : List Char, core.length ≤ 1000 ∧
      ∃ i n : Nat, i < n ∧ r.text.toList = markChunk n i core := by
  unfold segments_to_warp_results at hr
  rw [List.mem_flatMap] at hr
  obtain ⟨seg, _hseg, hrm⟩ := hr
  by_cases h1 : (seg.ty = some "text" && seg.tx.isSome) = true
  · rw [if_pos h1] at hrm
    by_cases h2 : 1000 < (seg.tx.getD "").toList.length
    · rw [if_pos h2] at hrm
      rw [List.mem_map] at hrm
      obtain ⟨⟨i, c⟩, hpmem, hpr⟩ := hrm
      rw [List.mem_enum_iff_getElem?] at hpmem
      have hilt : i < (smart_split_text (seg.tx.getD "").toList).length :=
        List.getElem?_eq_some_iff.mp hpmem |>.1
      have hceq : (smart_split_text (seg.tx.getD "").toList)[i] = c := by
        have := List.getElem?_eq_some_iff.mp hpmem
        exact this.2
      have hcmem : c ∈ smart_split_text (seg.tx.getD "").toList := by
        rw [← hceq]
        exact List.getElem_mem _
      refine ⟨c, smart_split_chunk_le _ c hcmem, i,
        (smart_split_text (seg.tx.getD "").toList).length, hilt, ?_⟩
      rw [← hpr]
      rfl
    · rw [if_neg h2] at hrm
      simp only [List.mem_singleton] at hrm
      subst hrm
      exact ⟨(seg.tx.getD "").toList, by omega, 0, 1, Nat.zero_lt_one, by simp [markChunk]⟩
  · rw [if_neg h1] at hrm
    exact absurd hrm (List.not_mem_nil r)

/-- C5 amended witness: a short text passes through as its own unmarked
single chunk. -/
theorem c5_amended_witness :
    ∃ core : List Char, core.length ≤ 1000 ∧
      ∃ i n : Nat, i < n ∧ (WarpChunk.mk "hi").text.toList = markChunk n i core :=
  c5_amended [⟨some "text", some "hi"⟩] ⟨"hi"⟩ (by decide)

/-- C6 counterexample: for `context_window_info = 3/128` and a Claude-3
model the terminating chunk carries `prompt_tokens = int(3/128 * 200000)
= 4687` (truncation), while rounding the same product gives 4688 — the
claim that the ratio is multiplied and rounded fails. -/
theorem c6_counterexample :
    processFinishedClean false "hi" (some c6Cwi) 0 "claude-3-5-sonnet"
        (fun s => s.toList.length) =
      [.chunk true (some "stop") (some ⟨4687, 2, 4689⟩), .doneLine] ∧
    round (extractContextUsage c6Cwi *
      (get_model_context_window "claude-3-5-sonnet" : ℚ)) = (4688 : ℤ) ∧
    (4687 : ℤ) ≠ 4688 := by
  have hcw : get_model_context_window "claude-3-5-sonnet" = 200000 := by decide
  have husage : extractContextUsage c6Cwi = 3 / 128 := by
    norm_num [extractContextUsage, c6Cwi, pyOrQ]
  have hprod : extractContextUsage c6Cwi *
      (get_model_context_window "claude-3-5-sonnet" : ℚ) = 9375 / 2 := by
    rw [husage, hcw]; norm_num
  have hin : estimatedInputTokens (some c6Cwi) 0 "claude-3-5-sonnet" = 4687 := by
    simp only [estimatedInputTokens]
    rw [if_pos (by rw [husage]; norm_num)]
    rw [hprod, pyInt]
    rw [if_pos (by norm_num)]
    norm_num [Int.floor_eq_iff]
  refine ⟨?_, ?_, by decide⟩
  · simp only [processFinishedClean, hin, estimatedOutputTokens]
    decide
  · rw [hprod, round_eq]
    norm_num [Int.floor_eq_iff]

theorem one_le_estimatedOutputTokens (ct : String → Nat) (s : String) :
    1 ≤ estimatedOutputTokens ct s := by
  unfold estimatedOutputTokens
  dsimp only
  split_ifs <;> omega

/-- C6 amended: on a clean finished event with a `context_window_info`
ratio present and in (0, 1], the terminating chunk has empty delta,
finish_reason `tool_calls` when a tool-call chunk was emitted and `stop`
otherwise, `prompt_tokens` equal to the ratio multiplied by the model
context window and **truncated** (Python `int()`, not rounded),
`completion_tokens` at least 1, and is followed by `data: [DONE]`. -/
theorem c6_amended (tce : Bool) (out : String) (info : CWInfo) (it : Nat)
    (model : String) (ct : String → Nat) (q : ℚ)
    (hq : extractContextUsage info = q) (h0 : 0 < q) (_h1 : q ≤ 1) :
    ∃ u : Usage,
      processFinishedClean tce out (some info) it model ct =
        [.chunk true (some (if tce then "tool_calls" else "stop")) (some u), .doneLine] ∧
      u.prompt_tokens = ⌊q * (get_model_context_window model : ℚ)⌋ ∧
      1 ≤ u.completion_tokens ∧
      u.total_tokens = u.prompt_tokens + u.completion_tokens := by
  have hnn : (0 : ℚ) ≤ q * (get_model_context_window model : ℚ) :=
    mul_nonneg h0.le (by positivity)
  have hin : estimatedInputTokens (some info) it model =
      ⌊q * (get_model_context_window model : ℚ)⌋ := by
    simp only [estimatedInputTokens, hq]
    rw [if_pos h0, pyInt, if_pos hnn]
  refine ⟨⟨⌊q * (get_model_context_window model : ℚ)⌋, estimatedOutputTokens ct out,
    ⌊q * (get_model_context_window model : ℚ)⌋ + estimatedOutputTokens ct out⟩,
    ?_, rfl, one_le_estimatedOutputTokens ct out, rfl⟩
  simp only [processFinishedClean, hin]

/-- C6 amended witness: ratio 1/2 on the default 100k window gives
prompt_tokens 50000. -/
theorem c6_amended_witness :
    ∃ u : Usage,
      processFinishedClean true "" (some (.dict none none (some (1/2)))) 5 "m"
          (fun _ => 0) =
        [.chunk true (some (if true then "tool_calls" else "stop")) (some u), .doneLine] ∧
      u.prompt_tokens = ⌊(1/2 : ℚ) * (get_model_context_window "m" : ℚ)⌋ ∧
      1 ≤ u.completion_tokens ∧
      u.total_tokens = u.prompt_tokens + u.completion_tokens :=
  c6_amended true "" (.dict none none (some (1/2))) 5 "m" (fun _ => 0) (1/2)
    (by norm_num [extractContextUsage, pyOrQ]) (by norm_num) (by norm_num)

/-- C7 counterexample: on the four-message history `c7History` the
normalizer is not idempotent — the second application moves the tool-call
assistant and its result after the plain assistant message, because pass A
reads the trailing (already-normalized) tool result as the final input and
defers its assistant. -/
theorem c7_counterexample :
    normalizeHistory (normalizeHistory c7History) ≠ normalizeHistory c7History := by
  decide

theorem normalize_singleton_seg_len (seg : Seg) :
    (normalize_content_to_list (some (.segs [seg]))).length ≤ 1 := by
  unfold normalize_content_to_list
  dsimp only [List.foldr]
  split_ifs <;> simp

theorem expandMsg_plain {m : ChatMessage} (hm : plainMsg m = true) :
    ∀ m' ∈ expandMsg m, plainMsg m' = true := by
  intro m' hm'
  unfold plainMsg at hm
  rw [Bool.and_eq_true, decide_eq_true_iff, Bool.not_eq_true'] at hm
  unfold expandMsg at hm'
  by_cases hu : m.role = "user"
  · rw [if_pos hu] at hm'
    match hc : m.content with
    | some (.segs items) =>
      rw [hc] at hm'
      dsimp only at hm'
      split at hm'
      · rw [List.mem_map] at hm'
        obtain ⟨seg, _, hseg⟩ := hm'
        split at hseg <;>
          · subst hseg
            simp [plainMsg, tcsTruthy]
      · simp only [List.mem_singleton] at hm'
        subst hm'
        simp [plainMsg, hm.1, hm.2]
    | some (.str s) =>
      rw [hc] at hm'
      simp only [List.mem_singleton] at hm'
      subst hm'
      simp [plainMsg, hm.1, hm.2]
    | none =>
      rw [hc] at hm'
      simp only [List.mem_singleton] at hm'
      subst hm'
      simp [plainMsg, hm.1, hm.2]
  · rw [if_neg hu] at hm'
    match ht : m.tool_calls with
    | some tcs =>
      rw [ht] at hm'
      have : tcs = [] := by
        rw [ht] at hm
        unfold tcsTruthy at hm
        simpa using hm.2
      subst this
      dsimp only at hm'
      rw [if_neg (by simp)] at hm'
      simp only [List.mem_singleton] at hm'
      subst hm'
      simp [plainMsg, hm.1, hm.2]
    | none =>
      rw [ht] at hm'
      simp only [List.mem_singleton] at hm'
      subst hm'
      simp [plainMsg, hm.1, hm.2]

theorem expandMsg_fix {m : ChatMessage} (hm : plainMsg m = true) :
    ∀ m' ∈ expandMsg m, expandMsg m' = [m'] := by
  intro m' hm'
  unfold plainMsg at hm
  rw [Bool.and_eq_true, decide_eq_true_iff, Bool.not_eq_true'] at hm
  unfold expandMsg at hm'
  by_cases hu : m.role = "user"
  · rw [if_pos hu] at hm'
    match hc : m.content with
    | some (.segs items) =>
      rw [hc] at hm'
      dsimp only at hm'
      split at hm'
      · rw [List.mem_map] at hm'
        obtain ⟨seg, _, hseg⟩ := hm'
        split at hseg
        · subst hseg
          rfl
        · subst hseg
          have hlen := normalize_singleton_seg_len seg
          unfold expandMsg
          simp [Nat.not_lt.mpr hlen]
      · next hlen =>
        simp only [List.mem_singleton] at hm'
        subst hm'
        unfold expandMsg
        rw [if_pos hu, hc]
        dsimp only
        rw [if_neg hlen]
    | some (.str s) =>
      rw [hc] at hm'
      simp only [List.mem_singleton] at hm'
      subst hm'
      unfold expandMsg
      rw [if_pos hu, hc]
    | none =>
      rw [hc] at hm'
      simp only [List.mem_singleton] at hm'
      subst hm'
      unfold expandMsg
      rw [if_pos hu, hc]
  · rw [if_neg hu] at hm'
    match ht : m.tool_calls with
    | some tcs =>
      rw [ht] at hm'
      have htnil : tcs = [] := by
        rw [ht] at hm
        unfold tcsTruthy at hm
        simpa using hm.2
      subst htnil
      dsimp only at hm'
      rw [if_neg (by simp)] at hm'
      simp only [List.mem_singleton] at hm'
      subst hm'
      unfold expandMsg
      rw [if_neg hu, ht]
      simp
    | none =>
      rw [ht] at hm'
      simp only [List.mem_singleton] at hm'
      subst hm'
      unfold expandMsg
      rw [if_neg hu, ht]

theorem flatMap_id_of_fix {α : Type} (f : α → List α) :
    ∀ l : List α, (∀ x ∈ l, f x = [x]) → l.flatMap f = l := by
  intro l
  induction l with
  | nil => intro _; rfl
  | cons a rest ih =>
    intro h
    rw [List.flatMap_cons, h a (List.mem_cons_self _ _),
      ih (fun x hx => h x (List.mem_cons_of_mem _ hx))]
    rfl

theorem expand_all_plain {h : List ChatMessage} (hp : ∀ m ∈ h, plainMsg m = true) :
    ∀ m' ∈ h.flatMap expandMsg, plainMsg m' = true := by
  intro m' hm'
  rw [List.mem_flatMap] at hm'
  obtain ⟨m, hm, hmem⟩ := hm'
  exact expandMsg_plain (hp m hm) m' hmem

theorem expand_idem {h : List ChatMessage} (hp : ∀ m ∈ h, plainMsg m = true) :
    (h.flatMap expandMsg).flatMap expandMsg = h.flatMap expandMsg := by
  apply flatMap_id_of_fix
  intro x hx
  rw [List.mem_flatMap] at hx
  obtain ⟨m, hm, hmem⟩ := hx
  exact expandMsg_fix (hp m hm) x hmem

theorem lastInputScan_none :
    ∀ l : List ChatMessage, (∀ m ∈ l, m.role ≠ "tool") → lastInputScan l = none := by
  intro l
  induction l with
  | nil => intro _; rfl
  | cons m rest ih =>
    intro h
    simp only [lastInputScan]
    rw [if_neg (by simp [h m (List.mem_cons_self _ _)])]
    split
    · rfl
    · exact ih (fun x hx => h x (List.mem_cons_of_mem _ hx))

theorem reorderStep_plain (tcIds : List String) (st : ReorderSt) (m : ChatMessage)
    (hm : plainMsg m = true) :
    reorderStep none tcIds st m = { st with result := st.result ++ [m] } := by
  unfold plainMsg at hm
  rw [Bool.and_eq_true, decide_eq_true_iff, Bool.not_eq_true'] at hm
  unfold reorderStep
  rw [if_neg hm.1]
  match ht : m.tool_calls with
  | some tcs =>
    have htnil : tcs = [] := by
      rw [ht] at hm
      unfold tcsTruthy at hm
      simpa using hm.2
    subst htnil
    dsimp only
    rw [if_neg (by simp)]
  | none => rfl

theorem reorder_loop_plain (tcIds : List String) :
    ∀ (l : List ChatMessage) (res : List ChatMessage)
      (trm : List (String × ChatMessage)),
      (∀ m ∈ l, plainMsg m = true) →
      l.foldl (reorderStep none tcIds) ⟨res, trm, none⟩ = ⟨res ++ l, trm, none⟩ := by
  intro l
  induction l with
  | nil => intro res trm _; simp
  | cons m rest ih =>
    intro res trm h
    rw [List.foldl_cons, reorderStep_plain tcIds _ m (h m (List.mem_cons_self _ _))]
    dsimp only
    rw [ih (res ++ [m]) trm (fun x hx => h x (List.mem_cons_of_mem _ hx))]
    simp

theorem reorder_plain_eq {h : List ChatMessage}
    (hp : ∀ m ∈ h, plainMsg m = true) :
    reorder_messages_for_anthropic h = h.flatMap expandMsg := by
  unfold reorder_messages_for_anthropic
  by_cases hnil : h = []
  · subst hnil
    simp
  · rw [if_neg hnil]
    dsimp only
    have hroles : ∀ m ∈ (h.flatMap expandMsg).reverse, m.role ≠ "tool" := by
      intro m hm
      have := expand_all_plain hp m (List.mem_reverse.mp hm)
      unfold plainMsg at this
      rw [Bool.and_eq_true, decide_eq_true_iff] at this
      exact this.1
    have hlast : lastInputTool (h.flatMap expandMsg) = none :=
      lastInputScan_none _ hroles
    rw [hlast]
    rw [reorder_loop_plain _ _ _ _ (expand_all_plain hp)]
    simp

theorem cleanGo_plain :
    ∀ (fuel : Nat) (fixed l : List ChatMessage),
      (∀ m ∈ l, plainMsg m = true) → cleanGo fuel fixed l = fixed ++ l := by
  intro fuel
  induction fuel with
  | zero => intro fixed l _; rfl
  | succ n ih =>
    intro fixed l hp
    match l with
    | [] => simp [cleanGo]
    | cur :: rest =>
      have hcur := hp cur (List.mem_cons_self _ _)
      unfold plainMsg at hcur
      rw [Bool.and_eq_true, decide_eq_true_iff, Bool.not_eq_true'] at hcur
      have hb : isAssistantTcBlock cur = false := by
        unfold isAssistantTcBlock
        rw [hcur.2]
        simp
      simp only [cleanGo]
      rw [if_neg (by simp [hb]), if_neg hcur.1]
      rw [ih (fixed ++ [cur]) rest (fun x hx => hp x (List.mem_cons_of_mem _ hx))]
      simp

theorem clean_plain {l : List ChatMessage}
    (hp : ∀ m ∈ l, plainMsg m = true) : clean_incomplete_tool_calls l = l := by
  unfold clean_incomplete_tool_calls
  by_cases hnil : l = []
  · rw [if_pos hnil]
  · rw [if_neg hnil]
    rw [cleanGo_plain l.length [] l hp]
    rfl

/-- C7 amended: the normalizer is idempotent on histories containing no
tool messages and no assistant tool calls, where normalization is exactly
the user-segment / assistant expansion pass (the counterexample shows
idempotence fails once tool results are involved). -/
theorem c7_amended (h : List ChatMessage) (hp : h.all plainMsg = true) :
    normalizeHistory (normalizeHistory h) = normalizeHistory h := by
  rw [List.all_eq_true] at hp
  have h1 : normalizeHistory h = h.flatMap expandMsg := by
    unfold normalizeHistory
    rw [reorder_plain_eq hp, clean_plain (expand_all_plain hp)]
  rw [h1]
  have hp2 : ∀ m ∈ h.flatMap expandMsg, plainMsg m = true := expand_all_plain hp
  unfold normalizeHistory
  rw [reorder_plain_eq hp2, expand_idem hp, clean_plain hp2]


/-- C7 amended witness: a single user message is a fixed point. -/
theorem c7_amended_witness :
    normalizeHistory (normalizeHistory [userMsg "hi"]) = normalizeHistory [userMsg "hi"] :=
  c7_amended [userMsg "hi"] (by decide)

theorem bytesFromHex_isSome_aux :
    ∀ (n : Nat) (l : List Char), l.length ≤ n →
      (∀ c ∈ l, (hexVal c).isSome) → l.length % 2 = 0 →
      (bytesFromHex l).isSome := by
  intro n
  induction n with
  | zero =>
    intro l hl _ _
    have : l = [] := List.eq_nil_of_length_eq_zero (Nat.le_zero.mp hl)
    rw [this]
    simp [bytesFromHex]
  | succ n ih =>
    intro l hl hall heven
    match l with
    | [] => simp [bytesFromHex]
    | [c] => simp at heven
    | c1 :: c2 :: rest =>
      have h1 := hall c1 (by simp)
      have h2 := hall c2 (by simp)
      have hrest : (∀ c ∈ rest, (hexVal c).isSome) := fun c hc => hall c (by simp [hc])
      have hlen' : rest.length % 2 = 0 := by
        simp only [List.length_cons] at heven
        omega
      have hle : rest.length ≤ n := by
        simp only [List.length_cons] at hl
        omega
      have := ih rest hle hrest hlen'
      cases hv1 : hexVal c1 with
      | none => rw [hv1] at h1; simp at h1
      | some a =>
        cases hv2 : hexVal c2 with
        | none => rw [hv2] at h2; simp at h2
        | some b =>
          cases hv3 : bytesFromHex rest with
          | none => rw [hv3] at this; simp at this
          | some bs => simp [bytesFromHex, hv1, hv2, hv3]

theorem bytesFromHex_isSome (l : List Char) (hall : ∀ c ∈ l, (hexVal c).isSome)
    (heven : l.length % 2 = 0) : (bytesFromHex l).isSome :=
  bytesFromHex_isSome_aux l.length l (Nat.le_refl _) hall heven

theorem bytesFromHex_odd_none_aux :
    ∀ (n : Nat) (l : List Char), l.length ≤ n → l.length % 2 = 1 →
      bytesFromHex l = none := by
  intro n
  induction n with
  | zero =>
    intro l hl hodd
    have : l = [] := List.eq_nil_of_length_eq_zero (Nat.le_zero.mp hl)
    subst this
    simp at hodd
  | succ n ih =>
    intro l hl hodd
    match l with
    | [] => simp at hodd
    | [c] => rfl
    | c1 :: c2 :: rest =>
      have hodd' : rest.length % 2 = 1 := by
        simp only [List.length_cons] at hodd
        omega
      have hle : rest.length ≤ n := by
        simp only [List.length_cons] at hl
        omega
      have hrest := ih rest hle hodd'
      cases hv1 : hexVal c1 <;> cases hv2 : hexVal c2 <;>
        simp [bytesFromHex, hv1, hv2, hrest]

theorem bytesFromHex_odd_none (l : List Char) (hodd : l.length % 2 = 1) :
    bytesFromHex l = none :=
  bytesFromHex_odd_none_aux l.length l (Nat.le_refl _) hodd

/-- C8 counterexample: the buffer `"abc"` fully matches `[0-9a-fA-F]+`,
but with an odd digit count `bytes.fromhex` fails and the code falls
through to base64: the frame is decoded as URL-safe base64 of `"abc="`
(bytes 0x69 0xb7), so a regex-matching buffer is neither hex-decoded nor
skipped — refuting the claim that a matching remainder is hex-decoded. -/
theorem c8_counterexample :
    isHexPayload (stripAllWs "abc") = true ∧
    bytesFromHex (stripAllWs "abc").toList = none ∧
    decode_payload_bytes "abc" =
      urlsafeB64decode (padRepair (stripAllWs "abc").toList) ∧
    decode_payload_bytes "abc" = some [105, 183] := by
  exact ⟨by decide, by decide, by decide, by decide⟩

/-- C8 amended: the streamer frame decoding first removes all whitespace;
a whitespace-only buffer yields no frame; a remainder fully matching
`[0-9a-fA-F]+` is hex-decoded only when its digit count is even; a
regex-matching remainder with an odd digit count (where `bytes.fromhex`
fails) falls through — like every non-matching remainder — to URL-safe
base64 with padding repair, then standard base64, yielding no frame when
both fail. -/
theorem c8_amended (s : String) :
    ((∀ c ∈ s.toList, isPyWs c = true) → decode_payload_bytes s = none) ∧
    (∀ t, stripAllWs s = t → isHexPayload t = true → t.toList.length % 2 = 0 →
      ∃ bs, bytesFromHex t.toList = some bs ∧ decode_payload_bytes s = some bs) ∧
    (∀ t, stripAllWs s = t → isHexPayload t = true → t.toList.length % 2 = 1 →
      decode_payload_bytes s =
        (match urlsafeB64decode (padRepair t.toList) with
         | some bs => some bs
         | none => b64decode (padRepair t.toList))) ∧
    (∀ t, stripAllWs s = t → t ≠ "" → isHexPayload t = false →
      decode_payload_bytes s =
        (match urlsafeB64decode (padRepair t.toList) with
         | some bs => some bs
         | none => b64decode (padRepair t.toList))) := by
  refine ⟨?_, ?_, ?_, ?_⟩
  · intro hws
    have hstrip : stripAllWs s = "" := by
      unfold stripAllWs
      have : s.toList.filter (fun c => !(isPyWs c)) = [] := by
        rw [List.filter_eq_nil_iff]
        intro c hc
        rw [hws c hc]
        decide
      rw [this]
    unfold decode_payload_bytes
    rw [hstrip]
    rfl
  · intro t ht hhex heven
    have htne : ¬(t = "") := by
      unfold isHexPayload at hhex
      rw [Bool.and_eq_true, decide_eq_true_iff] at hhex
      exact hhex.1
    have hall : ∀ c ∈ t.toList, (hexVal c).isSome := by
      have h' := hhex
      unfold isHexPayload at h'
      rw [Bool.and_eq_true, List.all_eq_true] at h'
      exact fun c hc => h'.2 c hc
    obtain ⟨bs, hbs⟩ := Option.isSome_iff_exists.mp (bytesFromHex_isSome t.toList hall heven)
    refine ⟨bs, hbs, ?_⟩
    unfold decode_payload_bytes
    rw [ht, if_neg htne]
    simp only [hhex, if_true]
    rw [hbs]
  · intro t ht hhex hodd
    have htne : ¬(t = "") := by
      unfold isHexPayload at hhex
      rw [Bool.and_eq_true, decide_eq_true_iff] at hhex
      exact hhex.1
    have hnone : bytesFromHex t.toList = none :=
      bytesFromHex_odd_none t.toList hodd
    unfold decode_payload_bytes
    rw [ht, if_neg htne]
    simp only [hhex, if_true]
    rw [hnone]
  · intro t ht htne hhexf
    unfold decode_payload_bytes
    rw [ht, if_neg htne, hhexf]
    rfl

/-- C8 witness: the buffer `" 4a\n"` strips to the even hex string `"4a"`
and decodes to the byte 0x4a. -/
theorem c8_amended_witness :
    ∃ bs, bytesFromHex "4a".toList = some bs ∧
      decode_payload_bytes " 4a\n" = some bs :=
  (c8_amended " 4a\n").2.1 "4a" (by decide) (by decide) (by decide)

/-- C9 counterexample: a pool already holding four valid, unexpired
credentials (pool size N = 3) is left untouched by a full maintenance
cycle — eviction removes nothing and no refill is scheduled — so the pool
still holds more than N credentials afterwards. -/
theorem c9_counterexample :
    (maintenanceCycle 3 0 c9Pool []).length = 4 ∧
    ¬ (maintenanceCycle 3 0 c9Pool []).length ≤ 3 := by
  exact ⟨by decide, by decide⟩

theorem filter_idem {α : Type} (p : α → Bool) (l : List α) :
    (l.filter p).filter p = l.filter p := by
  induction l with
  | nil => rfl
  | cons a l ih =>
    by_cases h : p a = true
    · simp [List.filter, h, ih]
    · simp only [List.filter, Bool.not_eq_true] at h ⊢
      rw [h, ih]

/-- C9 amended: after one maintenance cycle (eviction, then completion of
the scheduled refill acquisitions, assumed to deliver valid unexpired
credentials) the pool holds no expired and no rate-limited credential, and
at most `max N v` credentials where `v` is the number of valid unexpired
credentials before the cycle; the claimed `≤ N` bound therefore holds
exactly when the pool did not already exceed `N` valid credentials. -/
theorem c9_amended (N : Nat) (now : Int) (pool fresh : List TokenInfo)
    (hfresh : ∀ t ∈ fresh, t.status = .valid ∧ tokenIsExpired now t = false) :
    (∀ t ∈ maintenanceCycle N now pool fresh,
        t.status = .valid ∧ tokenIsExpired now t = false) ∧
    (maintenanceCycle N now pool fresh).length ≤
      max N (cleanupInvalidTokens now pool).length := by
  have hclean : ∀ t ∈ cleanupInvalidTokens now pool,
      t.status = .valid ∧ tokenIsExpired now t = false := by
    intro t ht
    have := List.of_mem_filter ht
    rw [Bool.and_eq_true, decide_eq_true_iff, Bool.not_eq_true'] at this
    exact this
  have hcount : poolValidCount now (cleanupInvalidTokens now pool) =
      (cleanupInvalidTokens now pool).length := by
    unfold poolValidCount cleanupInvalidTokens
    rw [filter_idem]
  unfold maintenanceCycle ensurePoolHealth
  rw [hcount]
  by_cases hle : (cleanupInvalidTokens now pool).length ≤ (N + 1) / 2
  · rw [if_pos hle]
    constructor
    · intro t ht
      rcases List.mem_append.mp ht with h | h
      · exact hclean t h
      · exact hfresh t (List.mem_of_mem_take h)
    · have htake := List.length_take_le (N - (cleanupInvalidTokens now pool).length) fresh
      rw [List.length_append]
      omega
  · rw [if_neg hle]
    exact ⟨hclean, le_max_right _ _⟩

/-- C9 amended witness: a pool of one valid and one rate-limited
credential refills to exactly N = 3 valid unexpired credentials. -/
theorem c9_amended_witness :
    (∀ t ∈ maintenanceCycle 3 0 [⟨some 100000, .valid⟩, ⟨some 100000, .rate_limited⟩]
        (List.replicate 3 ⟨some 100000, .valid⟩),
      t.status = .valid ∧ tokenIsExpired 0 t = false) ∧
    (maintenanceCycle 3 0 [⟨some 100000, .valid⟩, ⟨some 100000, .rate_limited⟩]
        (List.replicate 3 ⟨some 100000, .valid⟩)).length ≤
      max 3 (cleanupInvalidTokens 0
        [⟨some 100000, .valid⟩, ⟨some 100000, .rate_limited⟩]).length :=
  c9_amended 3 0 _ _ (by decide)

/-- C10 confirmed: the single-message request `[tool x "r"]` passes the
400-on-empty-messages validation, yet the normalizer drops its only
message, and `attach_user_and_tools_to_inputs` hits its assertion on the
empty normalized history instead of building a packet. -/
theorem c10_normalizer_empties_nonempty_request :
    requestRejectedEmptyMessages c10Messages = false ∧
    normalizeHistory c10Messages = [] ∧
    attach_user_and_tools_to_inputs (normalizeHistory c10Messages) none =
      .error "post-reorder must contain at least one message" := by
  exact ⟨by decide, by decide, by decide⟩

end Warp2Api
